import Mathlib

/-!
# Verification of the chatbot-RAG core

A shallow embedding of the repository's text segmentation algorithm
(`src/text_processor.py`), vector-store adapter (`src/vector_store.py`) and
pipeline orchestration (`src/rag_engine.py`), together with proofs settling
the frozen claims about them.

Python strings are sequences of Unicode code points, so they are embedded as
`List Char`.  The external tokenizer (tiktoken's `cl100k_base`) is an opaque
collaborator; following the specification, which accepts any fixed
deterministic tokenizer for sizing, the `TextProcessor` is parameterised by a
token-counting function, and concrete statements instantiate it with a
whitespace word counter.
-/

/-- A Python string: a sequence of Unicode code points. -/
abbrev PyStr := List Char

/-- Code-point sequence of a Lean string literal. -/
def pls (s : String) : PyStr := s.data

/-- The paragraph separator `"\n\n"` used by `split_text`. -/
def nnSep : PyStr := ['\n', '\n']

/-- The sentence separator `". "` used by `split_text`. -/
def dotSep : PyStr := ['.', ' ']

/-- The single-space separator used for overlap anchors. -/
def spSep : PyStr := [' ']

/-- Word-counting state machine: `inw` records whether the previous character
was inside a word.  Counts maximal runs of non-whitespace characters. -/
def wcAux : Bool → PyStr → Nat
  | _, [] => 0
  | inw, c :: rest =>
    if c.isWhitespace then wcAux false rest
    else (if inw then 0 else 1) + wcAux true rest

/-- A fixed deterministic token counter (whitespace-separated word count),
standing in for the external `tiktoken` collaborator as allowed by §4.1 of
the specification. -/
def wordTok (s : PyStr) : Nat := wcAux false s

/-- Python `str.strip()`: remove leading and trailing whitespace. -/
def pyStrip (s : PyStr) : PyStr :=
  ((s.dropWhile Char.isWhitespace).reverse.dropWhile Char.isWhitespace).reverse

/-- Whether a string contains two adjacent newline characters, i.e. an
occurrence of the paragraph separator `"\n\n"`. -/
def hasNN : PyStr → Bool
  | a :: b :: t => (a = '\n' && b = '\n') || hasNN (b :: t)
  | _ => false

/-- Fuel-indexed scanner implementing Python `str.split(sep)` for a nonempty
separator: left-to-right, non-overlapping, keeping empty pieces.  The fuel
only discharges termination; it is never exhausted when it starts at the
length of the scanned string. -/
def splitGo (sep : PyStr) : Nat → PyStr → PyStr → List PyStr
  | _, [], acc => [acc.reverse]
  | 0, s, acc => [acc.reverse ++ s]
  | fuel + 1, c :: rest, acc =>
    if sep.isPrefixOf (c :: rest) then
      acc.reverse :: splitGo sep fuel ((c :: rest).drop sep.length) []
    else
      splitGo sep fuel rest (c :: acc)

/-- Python `s.split(sep)` for a nonempty separator. -/
def pySplit (sep s : PyStr) : List PyStr := splitGo sep s.length s []

/-- Python `sep.join(parts)`. -/
def pyJoin (sep : PyStr) : List PyStr → PyStr
  | [] => []
  | [p] => p
  | p :: q :: rest => p ++ sep ++ pyJoin sep (q :: rest)

/-- Python `l[-n:]` for `n ≥ 1`: the last `n` elements. -/
def lastN (n : Nat) (l : List α) : List α := l.drop (l.length - n)

/-- Fuel-indexed decimal rendering of a natural number. -/
def natStrGo : Nat → Nat → PyStr
  | 0, n => [Nat.digitChar n]
  | fuel + 1, n =>
    if n < 10 then [Nat.digitChar n]
    else natStrGo fuel (n / 10) ++ [Nat.digitChar (n % 10)]

/-- Python `str(n)` for a natural number. -/
def natStr (n : Nat) : PyStr := natStrGo n n

/-- Value of a decimal digit string (used to invert `natStr`). -/
def digitsVal (l : PyStr) : Nat := l.foldl (fun a c => a * 10 + (c.toNat - 48)) 0

/-- A Python metadata value: a string or an integer. -/
inductive MVal where
  | s (v : PyStr)
  | n (v : Nat)
deriving DecidableEq

/-- A Python dict with string keys, in insertion order. -/
abbrev Metadata := List (PyStr × MVal)

/-- Python dict assignment `d[k] = v`: overwrite in place, else append. -/
def setKey (m : Metadata) (k : PyStr) (v : MVal) : Metadata :=
  match m with
  | [] => [(k, v)]
  | (k', v') :: rest => if k' = k then (k, v) :: rest else (k', v') :: setKey rest k v

/-- Python `d.get(k)`: value of the first (unique) binding of `k`. -/
def getKey (m : Metadata) (k : PyStr) : Option MVal :=
  match m with
  | [] => none
  | (k', v') :: rest => if k' = k then some v' else getKey rest k

/-- A chunk produced by `split_text`: content plus metadata. -/
structure Chunk where
  content : PyStr
  metadata : Metadata
deriving DecidableEq

/-- A loaded document (output of the Document Source collaborator). -/
structure Document where
  content : PyStr
  metadata : Metadata
deriving DecidableEq

/-- The `TextProcessor` class: chunking configuration plus the tokenizer
(the `encoding` field of the source, kept opaque). -/
structure TextProcessor where
  chunk_size : Nat
  chunk_overlap : Nat
  tok : PyStr → Nat

/-- `TextProcessor.count_tokens`. -/
def TextProcessor.count_tokens (tp : TextProcessor) (text : PyStr) : Nat := tp.tok text

/-- `TextProcessor._create_chunk`: join the pending pieces with a blank line,
copy the metadata and extend the copy with `chunk_id` and `tokens`. -/
def TextProcessor.create_chunk (tp : TextProcessor) (text_parts : List PyStr)
    (metadata : Option Metadata) (chunk_id : Nat) : Chunk :=
  let content := pyJoin nnSep text_parts
  let chunk_metadata := match metadata with | some m => m | none => []
  let chunk_metadata := setKey chunk_metadata (pls "chunk_id") (.n chunk_id)
  let chunk_metadata := setKey chunk_metadata (pls "tokens") (.n (tp.count_tokens content))
  { content := content, metadata := chunk_metadata }

/-- Accumulation state of `split_text`: emitted chunks, pending pieces
(`current_chunk`) and their running token count (`current_length`). -/
structure SegState where
  chunks : List Chunk
  current_chunk : List PyStr
  current_length : Nat

/-- Body of the sentence loop of `split_text` for one already-stripped,
nonempty fragment: flush (with the last-two overlap anchor) when adding the
fragment would overflow a nonempty pending sequence, then append it. -/
def TextProcessor.sentenceStep (tp : TextProcessor) (metadata : Option Metadata)
    (s : PyStr) (st : SegState) : SegState :=
  let sent_tokens := tp.count_tokens s
  let st1 :=
    if st.current_length + sent_tokens > tp.chunk_size ∧ st.current_chunk ≠ [] then
      let chunks' := st.chunks ++ [tp.create_chunk st.current_chunk metadata st.chunks.length]
      let overlap_text :=
        if st.current_chunk.length ≥ 2 then pyJoin spSep (lastN 2 st.current_chunk) else []
      if overlap_text ≠ [] then
        ⟨chunks', [overlap_text], tp.count_tokens overlap_text⟩
      else
        ⟨chunks', [], 0⟩
    else st
  ⟨st1.chunks, st1.current_chunk ++ [s], st1.current_length + sent_tokens⟩

/-- The inner loop of `split_text` over the `". "`-separated fragments of an
oversized paragraph (strip each fragment, skip empty ones). -/
def TextProcessor.processSentences (tp : TextProcessor) (metadata : Option Metadata) :
    List PyStr → SegState → SegState
  | [], st => st
  | sentence :: rest, st =>
    let s := pyStrip sentence
    if s = [] then tp.processSentences metadata rest st
    else tp.processSentences metadata rest (tp.sentenceStep metadata s st)

/-- The sentence loop restricted to its surviving fragments (the stripped,
nonempty ones); `processSentences` is equal to this loop over the filtered
fragment list. -/
def TextProcessor.processFrags (tp : TextProcessor) (metadata : Option Metadata) :
    List PyStr → SegState → SegState
  | [], st => st
  | f :: rest, st => tp.processFrags metadata rest (tp.sentenceStep metadata f st)

/-- Body of the paragraph loop for one normal (within-budget) paragraph:
flush (with the last-one overlap anchor) when adding it would overflow a
nonempty pending sequence, then append it. -/
def TextProcessor.paraStep (tp : TextProcessor) (metadata : Option Metadata)
    (p : PyStr) (st : SegState) : SegState :=
  let para_tokens := tp.count_tokens p
  let st1 :=
    if st.current_length + para_tokens > tp.chunk_size ∧ st.current_chunk ≠ [] then
      let chunks' := st.chunks ++ [tp.create_chunk st.current_chunk metadata st.chunks.length]
      let overlap_text := pyJoin spSep (lastN 1 st.current_chunk)
      if overlap_text ≠ [] then
        ⟨chunks', [overlap_text], tp.count_tokens overlap_text⟩
      else
        ⟨chunks', [], 0⟩
    else st
  ⟨st1.chunks, st1.current_chunk ++ [p], st1.current_length + para_tokens⟩

/-- The outer loop of `split_text` over `"\n\n"`-separated paragraphs: strip,
skip empty paragraphs, send oversized paragraphs through the sentence loop
(after flushing any pending pieces), pack normal ones greedily. -/
def TextProcessor.processParas (tp : TextProcessor) (metadata : Option Metadata) :
    List PyStr → SegState → SegState
  | [], st => st
  | para :: rest, st =>
    let p := pyStrip para
    if p = [] then tp.processParas metadata rest st
    else if tp.count_tokens p > tp.chunk_size then
      let st1 :=
        if st.current_chunk ≠ [] then
          ⟨st.chunks ++ [tp.create_chunk st.current_chunk metadata st.chunks.length], [], 0⟩
        else st
      tp.processParas metadata rest (tp.processSentences metadata (pySplit dotSep p) st1)
    else
      tp.processParas metadata rest (tp.paraStep metadata p st)

/-- `TextProcessor.split_text`: divide a text into chunks with overlap. -/
def TextProcessor.split_text (tp : TextProcessor) (text : PyStr)
    (metadata : Option Metadata) : List Chunk :=
  if text = [] ∨ pyStrip text = [] then []
  else
    let st := tp.processParas metadata (pySplit nnSep text) ⟨[], [], 0⟩
    if st.current_chunk ≠ [] then
      st.chunks ++ [tp.create_chunk st.current_chunk metadata st.chunks.length]
    else st.chunks

/-- `TextProcessor.process_documents`: chunk every document and concatenate. -/
def TextProcessor.process_documents (tp : TextProcessor) (documents : List Document) :
    List Chunk :=
  (documents.map (fun doc => tp.split_text doc.content (some doc.metadata))).flatten

/-- A `TextProcessor` over the word-count tokenizer (defaults of
`config/settings.py` scale the token budget; the algorithm only reads
`chunk_size`). -/
def wordProcessor (chunk_size : Nat) : TextProcessor :=
  { chunk_size := chunk_size, chunk_overlap := 150, tok := wordTok }

/-- An embedding vector.  The source's floats are embedded as rationals: the
only arithmetic the core performs on them is the single subtraction
`1 - distance`, whose branch structure is what the claims are about. -/
abbrev Embedding := List ℚ

/-- A retrieved chunk as formatted by `VectorStore.search`. -/
structure RetrievedDoc where
  content : PyStr
  metadata : Metadata
  distance : Option ℚ
deriving DecidableEq

/-- The raw response of the Vector Index `query` call (ChromaDB): parallel
per-query lists, the distances possibly absent. -/
structure RawResults where
  documents : List (List PyStr)
  metadatas : List (List Metadata)
  distances : Option (List (List ℚ))
deriving DecidableEq

/-- Observable collaborator invocations performed by the pipeline, in order. -/
inductive Effect where
  | loadCall
  | segmentCall
  | embedBatchCall (texts : List PyStr)
  | storeCall (ids : List PyStr) (documents : List PyStr)
      (embeddings : List Embedding) (metadatas : List Metadata)
  | embedCall (text : PyStr)
  | searchCall (top_k : Nat)
  | llmCall (question : PyStr)
deriving DecidableEq

/-- `VectorStore.search`: query the Vector Index, formatting well-formed
results and degrading any collaborator failure to an empty list.  The
collaborator is passed as a function returning `Except` (a raised exception
is the `error` case). -/
def VectorStore.search (queryFn : Embedding → Nat → Except PyStr RawResults)
    (query_embedding : Embedding) (top_k : Nat) : List RetrievedDoc :=
  match queryFn query_embedding top_k with
  | .error _ => []
  | .ok results =>
    if results.documents ≠ [] ∧ (results.documents.headD []).length > 0 then
      (List.range (results.documents.headD []).length).map (fun i =>
        { content := (results.documents.headD []).getD i []
          metadata := (results.metadatas.headD []).getD i []
          distance :=
            match results.distances with
            | some ds => some ((ds.headD []).getD i 0)
            | none => none })
    else []

/-- Rendering of a chunk's `chunk_id` metadata value inside the stored id
(`f"doc_{i}_{chunk['metadata'].get('chunk_id', i)}"`). -/
def chunkIdRender (chunk : Chunk) (i : Nat) : PyStr :=
  match getKey chunk.metadata (pls "chunk_id") with
  | some (.n v) => natStr v
  | some (.s v) => v
  | none => natStr i

/-- The id stored for the chunk at flat position `i`. -/
def mkDocId (i : Nat) (chunk : Chunk) : PyStr :=
  pls "doc_" ++ natStr i ++ pls "_" ++ chunkIdRender chunk i

/-- The id list built by `add_documents` (`enumerate` starting at `i`). -/
def makeIds : Nat → List Chunk → List PyStr
  | _, [] => []
  | i, chunk :: rest => mkDocId i chunk :: makeIds (i + 1) rest

/-- The `ValueError` message raised on a chunk/embedding count mismatch. -/
def mismatchMsg : PyStr := pls "Número de chunks y embeddings no coincide"

/-- `VectorStore.add_documents`: raise on a count mismatch before any Vector
Index call, otherwise hand ids, contents, embeddings and metadata to the
index in one `collection.add` call (whose own failure re-raises).  The second
component records the Vector Index calls actually made. -/
def VectorStore.add_documents
    (addFn : List PyStr → List PyStr → List Embedding → List Metadata → Except PyStr Unit)
    (chunks : List Chunk) (embeddings : List Embedding) :
    Except PyStr Unit × List Effect :=
  if chunks.length ≠ embeddings.length then
    (.error mismatchMsg, [])
  else
    let ids := makeIds 0 chunks
    let documents := chunks.map (·.content)
    let metadatas := chunks.map (·.metadata)
    match addFn ids documents embeddings metadatas with
    | .ok _ => (.ok (), [.storeCall ids documents embeddings metadatas])
    | .error e => (.error e, [.storeCall ids documents embeddings metadatas])

/-- The fixed no-relevant-information answer of `RAGEngine.query`. -/
def noInfoAnswer : PyStr := pls "No encontré información relevante en los documentos indexados."

/-- The default file name used when a source's metadata has no `file_name`. -/
def unknownFile : PyStr := pls "Desconocido"

/-- Python truthiness of `doc['distance']`: `None` and `0.0` are falsy. -/
def truthyQ : Option ℚ → Bool
  | none => false
  | some d => d ≠ 0

/-- A `sources` entry of a query result. -/
structure SourceInfo where
  file : MVal
  chunk_id : MVal
  relevance : Option ℚ
deriving DecidableEq

/-- The dict returned by `RAGEngine.query` (`num_sources` only present on the
non-empty branch). -/
structure QueryResult where
  answer : PyStr
  sources : List SourceInfo
  num_sources : Option Nat
deriving DecidableEq

/-- `RAGEngine.query`: embed the question, search the index, short-circuit on
zero results, otherwise generate an answer and derive the sources.  The
collaborators are passed as functions; the second component records the
collaborator calls made, in order. -/
def RAGEngine.query (embedFn : PyStr → Embedding)
    (searchFn : Embedding → Nat → List RetrievedDoc)
    (llmFn : PyStr → List RetrievedDoc → PyStr)
    (question : PyStr) (top_k : Nat) : QueryResult × List Effect :=
  let question_embedding := embedFn question
  let relevant_docs := searchFn question_embedding top_k
  if relevant_docs = [] then
    ({ answer := noInfoAnswer, sources := [], num_sources := none },
     [.embedCall question, .searchCall top_k])
  else
    let answer := llmFn question relevant_docs
    let sources := relevant_docs.map (fun doc =>
      { file := (getKey doc.metadata (pls "file_name")).getD (.s unknownFile)
        chunk_id := (getKey doc.metadata (pls "chunk_id")).getD (.n 0)
        relevance :=
          if truthyQ doc.distance then some (1 - doc.distance.getD 0) else none })
    ({ answer := answer, sources := sources, num_sources := some sources.length },
     [.embedCall question, .searchCall top_k, .llmCall question])

/-- `RAGEngine.index_documents`: load (collaborator result passed in), stop
with a plain `return` (Python `None`, hence the `Option Nat` result is always
`none`: the function never reports a count) when nothing was loaded,
otherwise segment, embed the batch and store.  The second component records
the pipeline steps executed, in order. -/
def RAGEngine.index_documents (tp : TextProcessor) (loadFn : List Document)
    (embedFn : List PyStr → List Embedding)
    (addFn : List PyStr → List PyStr → List Embedding → List Metadata → Except PyStr Unit) :
    Except PyStr (Option Nat) × List Effect :=
  let documents := loadFn
  if documents = [] then
    (.ok none, [.loadCall])
  else
    let chunks := tp.process_documents documents
    let texts := chunks.map (·.content)
    let embeddings := embedFn texts
    match VectorStore.add_documents addFn chunks embeddings with
    | (.ok _, tr) => (.ok none, [.loadCall, .segmentCall, .embedBatchCall texts] ++ tr)
    | (.error e, tr) => (.error e, [.loadCall, .segmentCall, .embedBatchCall texts] ++ tr)

/-- Word-machine state after scanning a string: `true` iff the last scanned
character was inside a word. -/
def wsState (b : Bool) (l : PyStr) : Bool := l.foldl (fun _ c => !c.isWhitespace) b

/-- A well-formed pending piece of `split_text`: nonempty, free of the
paragraph separator, and trimmed on both sides. -/
def GoodPiece (p : PyStr) : Prop :=
  p ≠ [] ∧ hasNN p = false ∧
    (∀ a ∈ p.head?, a.isWhitespace = false) ∧ (∀ a ∈ p.getLast?, a.isWhitespace = false)

/-- All pieces of a pending sequence are well formed. -/
def GoodParts (parts : List PyStr) : Prop := ∀ p ∈ parts, GoodPiece p

/-- Certificate for an emitted chunk list: the chunk at position `i` was
created (by `_create_chunk`) from a nonempty, well-formed piece list with
chunk id `i`, and its pieces' token sum is within the budget unless there
are at most two of them (a lone oversized fragment, or an overlap anchor
plus the fragment appended right after a flush). -/
def ChunksOk (tp : TextProcessor) (metadata : Option Metadata) (l : List Chunk) : Prop :=
  ∀ i (h : i < l.length), ∃ parts, parts ≠ [] ∧ GoodParts parts ∧
    l[i] = tp.create_chunk parts metadata i ∧
    ((parts.map tp.tok).sum ≤ tp.chunk_size ∨ parts.length ≤ 2)

/-- Invariant of the `split_text` accumulation state: the running length is
the token sum of the pending pieces, the pending pieces are well formed, a
pending sequence over budget has at most two pieces, and the emitted chunks
satisfy `ChunksOk`. -/
structure SegInv (tp : TextProcessor) (metadata : Option Metadata) (st : SegState) : Prop where
  len_eq : st.current_length = (st.current_chunk.map tp.tok).sum
  good : GoodParts st.current_chunk
  small : tp.chunk_size < st.current_length → st.current_chunk.length ≤ 2
  chunks_ok : ChunksOk tp metadata st.chunks

/-- Flat position encoded in a stored chunk id (inverts `mkDocId`). -/
def idIndex (s : PyStr) : Nat := digitsVal ((s.drop 4).takeWhile (fun c => c != '_'))

example : pls "ab" = ['a', 'b'] := rfl
example : pySplit nnSep (pls "a\n\nb") = [['a'], ['b']] := rfl
example : pySplit dotSep (pls "a. . b") = [['a'], [], ['b']] := rfl
example : pyJoin nnSep [['a'], ['b']] = ['a', '\n', '\n', 'b'] := rfl
example : wordTok (pls "a b. c d") = 4 := rfl
example : pyStrip (pls "  a b ") = ['a', ' ', 'b'] := rfl
example : natStr 120 = ['1', '2', '0'] := rfl
example :
    ((wordProcessor 4).split_text (pls "a b. c d. e f. g h") none).map Chunk.content =
      [pls "a b\n\nc d", pls "a b c d\n\ne f", pls "a b c d e f\n\ng h"] := rfl
example : ((wordProcessor 2).split_text (pls "a. . b") none).length = 1 := rfl

/-! ## Word counting -/

theorem wcAux_ws (b : Bool) {c : Char} (hc : c.isWhitespace = true) (l : PyStr) :
    wcAux b (c :: l) = wcAux false l := by
  simp [wcAux, hc]

theorem wcAux_nws (b : Bool) {c : Char} (hc : c.isWhitespace = false) (l : PyStr) :
    wcAux b (c :: l) = (if b then 0 else 1) + wcAux true l := by
  simp [wcAux, hc]

theorem wcAux_append (b : Bool) (xs ys : PyStr) :
    wcAux b (xs ++ ys) = wcAux b xs + wcAux (wsState b xs) ys := by
  induction xs generalizing b with
  | nil => simp [wcAux, wsState]
  | cons c rest ih =>
    by_cases hc : c.isWhitespace
    · rw [List.cons_append, wcAux_ws _ hc, wcAux_ws _ hc, ih false]
      have hst : wsState b (c :: rest) = wsState false rest := by
        simp [wsState, List.foldl_cons, hc]
      rw [hst]
    · rw [List.cons_append, wcAux_nws _ (by simp [hc]), wcAux_nws _ (by simp [hc]),
        ih true, Nat.add_assoc]
      have hst : wsState b (c :: rest) = wsState true rest := by
        simp [wsState, List.foldl_cons, hc]
      rw [hst]

theorem wcAux_sep_absorb (b : Bool) (sep q : PyStr) (hsep : ∀ c ∈ sep, c.isWhitespace = true)
    (hne : sep ≠ []) : wcAux b (sep ++ q) = wcAux false q := by
  induction sep generalizing b with
  | nil => exact absurd rfl hne
  | cons c rest ih =>
    have hc : c.isWhitespace = true := hsep c (by simp)
    rcases rest with _ | ⟨d, rest'⟩
    · simp [wcAux_ws _ hc]
    · rw [List.cons_append, wcAux_ws _ hc]
      exact ih false (fun x hx => hsep x (by simp [hx])) (by simp)

theorem wordTok_sep_append (p sep q : PyStr) (hsep : ∀ c ∈ sep, c.isWhitespace = true)
    (hne : sep ≠ []) : wordTok (p ++ sep ++ q) = wordTok p + wordTok q := by
  rw [wordTok, List.append_assoc, wcAux_append, wcAux_sep_absorb _ _ _ hsep hne]
  rfl

theorem wordTok_join (sep : PyStr) (hsep : ∀ c ∈ sep, c.isWhitespace = true)
    (hne : sep ≠ []) (parts : List PyStr) :
    wordTok (pyJoin sep parts) = (parts.map wordTok).sum := by
  induction parts with
  | nil => simp [pyJoin, wordTok, wcAux]
  | cons p rest ih =>
    rcases rest with _ | ⟨q, rest'⟩
    · simp [pyJoin]
    · rw [pyJoin, wordTok_sep_append _ _ _ hsep hne, ih]
      simp

theorem wordTok_pos_ne_nil {s : PyStr} (h : 0 < wordTok s) : s ≠ [] := by
  intro hs; subst hs; simp [wordTok, wcAux] at h

/-! ## Strings containing the paragraph separator -/

theorem hasNN_iff (l : PyStr) :
    hasNN l = true ↔ ∃ x y, l = x ++ '\n' :: '\n' :: y := by
  constructor
  · intro h
    induction l with
    | nil => simp [hasNN] at h
    | cons a rest ih =>
      rcases rest with _ | ⟨b, t⟩
      · simp [hasNN] at h
      · rw [hasNN, Bool.or_eq_true] at h
        rcases h with h | h
        · simp only [Bool.and_eq_true, decide_eq_true_eq] at h
          exact ⟨[], t, by simp [h.1, h.2]⟩
        · obtain ⟨x, y, hxy⟩ := ih h
          exact ⟨a :: x, y, by simp [hxy]⟩
  · rintro ⟨x, y, rfl⟩
    induction x with
    | nil => simp [hasNN]
    | cons a rest ih =>
      rcases rest with _ | ⟨b, t⟩
      · simp [hasNN]
      · simp only [List.cons_append] at ih ⊢
        rw [hasNN, ih]
        simp

theorem hasNN_of_within {p s : PyStr} (hp : p <:+: s) (hs : hasNN s = false) :
    hasNN p = false := by
  by_contra h
  rw [Bool.not_eq_false, hasNN_iff] at h
  obtain ⟨x, y, rfl⟩ := h
  obtain ⟨u, v, rfl⟩ := hp
  rw [← Bool.not_eq_true, hasNN_iff] at hs
  exact hs ⟨u ++ x, y ++ v, by simp⟩

/-! ## Stripping -/

theorem dropWhile_head_not (p : α → Bool) (l : List α) :
    ∀ a ∈ (l.dropWhile p).head?, p a = false := by
  induction l with
  | nil => simp
  | cons c rest ih =>
    by_cases hc : p c
    · simpa [List.dropWhile_cons, hc] using ih
    · simp [List.dropWhile_cons, hc]

theorem dropWhile_getLast_eq (p : α → Bool) (l : List α) (h : l.dropWhile p ≠ []) :
    (l.dropWhile p).getLast? = l.getLast? := by
  induction l with
  | nil => simp at h
  | cons c rest ih =>
    rw [List.dropWhile_cons] at h ⊢
    by_cases hc : p c
    · rw [if_pos hc] at h ⊢
      rcases rest with _ | ⟨d, t⟩
      · simp at h
      · rw [ih h, List.getLast?_cons_cons]
    · rw [if_neg hc]

theorem pyStrip_head (s : PyStr) : ∀ a ∈ (pyStrip s).head?, a.isWhitespace = false := by
  intro a ha
  rw [pyStrip, List.head?_reverse] at ha
  have hvne : (s.dropWhile Char.isWhitespace).reverse.dropWhile Char.isWhitespace ≠ [] := by
    intro h0
    rw [h0] at ha
    simp at ha
  rw [dropWhile_getLast_eq _ _ hvne, List.getLast?_reverse] at ha
  exact dropWhile_head_not _ _ a ha

theorem pyStrip_getLast (s : PyStr) : ∀ a ∈ (pyStrip s).getLast?, a.isWhitespace = false := by
  intro a ha
  rw [pyStrip, List.getLast?_reverse] at ha
  exact dropWhile_head_not _ _ a ha

theorem pyStrip_within (s : PyStr) : pyStrip s <:+: s := by
  have h1 : pyStrip s <+: s.dropWhile Char.isWhitespace := by
    rw [pyStrip, ← List.reverse_suffix, List.reverse_reverse]
    exact List.dropWhile_suffix _
  exact h1.isInfix.trans (List.dropWhile_suffix Char.isWhitespace).isInfix

theorem pyStrip_ne_nil {s : PyStr} {c : Char} (hc : c ∈ s) (hw : c.isWhitespace = false) :
    pyStrip s ≠ [] := by
  have hu : c ∈ s.dropWhile Char.isWhitespace := by
    have hsplit := List.takeWhile_append_dropWhile Char.isWhitespace (l := s)
    rcases List.mem_append.mp (hsplit ▸ hc) with h | h
    · have := List.mem_takeWhile_imp h
      rw [hw] at this
      exact absurd this (by simp)
    · exact h
  intro h0
  rw [pyStrip, List.reverse_eq_nil_iff, List.dropWhile_eq_nil_iff] at h0
  have := h0 c (by simp [hu])
  rw [hw] at this
  simp at this

theorem goodPiece_strip {s : PyStr} (hne : pyStrip s ≠ []) (hnn : hasNN s = false) :
    GoodPiece (pyStrip s) :=
  ⟨hne, hasNN_of_within (pyStrip_within s) hnn, pyStrip_head s, pyStrip_getLast s⟩

theorem goodPiece_mem_ne_nil {s : PyStr} (h : GoodPiece s) : s ≠ [] := h.1

theorem pyStrip_has_nonws {s : PyStr} (h : pyStrip s ≠ []) :
    ∃ c ∈ s, c.isWhitespace = false := by
  rcases hx : pyStrip s with _ | ⟨a, t⟩
  · exact absurd hx h
  · refine ⟨a, ?_, ?_⟩
    · exact (pyStrip_within s).subset (hx ▸ List.mem_cons_self a t)
    · have := pyStrip_head s a (by rw [hx]; rfl)
      exact this

/-! ## Separator structure -/

theorem hasNN_cons_cons (a b : Char) (t : PyStr) :
    hasNN (a :: b :: t) = ((a = '\n' && b = '\n') || hasNN (b :: t)) := rfl

theorem hasNN_append_single {c : Char} (hc : c ≠ '\n') (p q : PyStr)
    (hp : hasNN p = false) (hq : hasNN q = false) : hasNN (p ++ c :: q) = false := by
  induction p with
  | nil =>
    rcases q with _ | ⟨d, t⟩
    · simp [hasNN]
    · rw [List.nil_append, hasNN_cons_cons, hq]
      simp [hc]
  | cons a rest ih =>
    rcases rest with _ | ⟨b, t⟩
    · rw [List.cons_append, List.nil_append, hasNN_cons_cons]
      rcases q with _ | ⟨d, t'⟩
      · simp [hasNN, hc]
      · rw [hasNN_cons_cons, hq]
        simp [hc]
    · rw [hasNN_cons_cons] at hp
      rcases Bool.or_eq_false_iff.mp hp with ⟨h1, h2⟩
      rw [List.cons_append, List.cons_append, hasNN_cons_cons]
      have := ih h2
      rw [List.cons_append] at this
      rw [this, h1]
      simp

theorem hasNN_snoc (xs : PyStr) (c : Char) (hxs : hasNN xs = false)
    (hb : ¬(xs.getLast? = some '\n' ∧ c = '\n')) : hasNN (xs ++ [c]) = false := by
  by_contra hcontra
  rw [Bool.not_eq_false, hasNN_iff] at hcontra
  obtain ⟨x, y, hxy⟩ := hcontra
  rcases List.eq_nil_or_concat y with rfl | ⟨y', d, rfl⟩
  · have hxy' : xs ++ [c] = (x ++ ['\n']) ++ ['\n'] := by rw [hxy]; simp
    have hx : xs = x ++ ['\n'] := by
      have h1 := congrArg List.dropLast hxy'
      rwa [List.dropLast_concat, List.dropLast_concat] at h1
    have hcn : c = '\n' := by
      have h2 := congrArg List.getLast? hxy'
      rw [List.getLast?_concat, List.getLast?_concat] at h2
      exact Option.some.inj h2
    apply hb
    refine ⟨?_, hcn⟩
    rw [hx]
    simp
  · have hxy' : xs ++ [c] = (x ++ '\n' :: '\n' :: y') ++ [d] := by rw [hxy]; simp
    have hx : xs = x ++ '\n' :: '\n' :: y' := by
      have h1 := congrArg List.dropLast hxy'
      rwa [List.dropLast_concat, List.dropLast_concat] at h1
    rw [← Bool.not_eq_true, hasNN_iff] at hxs
    exact hxs ⟨x, y', hx⟩

/-! ## Joining -/

theorem pyJoin_cons_of_ne (sep p : PyStr) {rest : List PyStr} (h : rest ≠ []) :
    pyJoin sep (p :: rest) = p ++ sep ++ pyJoin sep rest := by
  rcases rest with _ | ⟨q, t⟩
  · exact absurd rfl h
  · rfl

theorem head?_append_left {p q : List α} (hp : p ≠ []) : (p ++ q).head? = p.head? := by
  rcases p with _ | ⟨a, t⟩
  · exact absurd rfl hp
  · rfl

theorem getLast?_append_left {p q : List α} (hq : q ≠ []) : (p ++ q).getLast? = q.getLast? := by
  obtain ⟨y, d, rfl⟩ := (List.eq_nil_or_concat q).resolve_left hq
  simp only [List.concat_eq_append]
  rw [← List.append_assoc, List.getLast?_concat, List.getLast?_concat]

theorem pyJoin_head? (sep p : PyStr) (rest : List PyStr) (hp : p ≠ []) :
    (pyJoin sep (p :: rest)).head? = p.head? := by
  rcases rest with _ | ⟨q, t⟩
  · rfl
  · rw [pyJoin_cons_of_ne _ _ (by simp), List.append_assoc, head?_append_left hp]

theorem pyJoin_ne_nil (sep : PyStr) {parts : List PyStr} (hne : parts ≠ [])
    (h : ∀ p ∈ parts, p ≠ []) : pyJoin sep parts ≠ [] := by
  rcases parts with _ | ⟨p, rest⟩
  · exact absurd rfl hne
  · have hp := h p (by simp)
    intro h0
    have := pyJoin_head? sep p rest hp
    rw [h0] at this
    rcases p with _ | ⟨a, t⟩
    · exact absurd rfl hp
    · simp at this

theorem pyJoin_getLast_eq (sep : PyStr) : ∀ (parts : List PyStr) (p : PyStr), p ≠ [] →
    (∀ x ∈ parts, x ≠ []) → (pyJoin sep (parts ++ [p])).getLast? = p.getLast? := by
  intro parts
  induction parts with
  | nil => intro p _ _; rfl
  | cons q t ih =>
    intro p hp hall
    have hjne : pyJoin sep (t ++ [p]) ≠ [] := by
      apply pyJoin_ne_nil sep (by simp)
      intro x hx
      rcases List.mem_append.mp hx with h | h
      · exact hall x (by simp [h])
      · rw [List.mem_singleton.mp h]; exact hp
    rw [List.cons_append, pyJoin_cons_of_ne _ _ (by simp),
      getLast?_append_left hjne, ih p hp (fun x hx => hall x (by simp [hx]))]

theorem goodPiece_joinSp : ∀ (parts : List PyStr), GoodParts parts → parts ≠ [] →
    GoodPiece (pyJoin spSep parts) := by
  intro parts
  induction parts with
  | nil => intro _ hne; exact absurd rfl hne
  | cons p t ih =>
    intro h _
    have hp : GoodPiece p := h p (by simp)
    rcases t with _ | ⟨q, t'⟩
    · exact hp
    · have ht : GoodParts (q :: t') := fun x hx => h x (by simp [hx])
      have hj : GoodPiece (pyJoin spSep (q :: t')) := ih ht (by simp)
      have hshape : pyJoin spSep (p :: q :: t') = p ++ ' ' :: pyJoin spSep (q :: t') := by
        rw [pyJoin_cons_of_ne _ _ (by simp), List.append_assoc]
        rfl
      refine ⟨?_, ?_, ?_, ?_⟩
      · rw [hshape]
        intro h0
        exact hp.1 (List.append_eq_nil.mp h0).1
      · rw [hshape]
        exact hasNN_append_single (by decide) p _ hp.2.1 hj.2.1
      · rw [hshape]
        rw [head?_append_left hp.1]
        exact hp.2.2.1
      · rw [hshape, show p ++ ' ' :: pyJoin spSep (q :: t') =
          (p ++ [' ']) ++ pyJoin spSep (q :: t') by simp]
        rw [getLast?_append_left hj.1]
        exact hj.2.2.2

theorem lastN_length (n : Nat) (l : List α) : (lastN n l).length = min n l.length := by
  simp [lastN]
  omega

theorem lastN_ne_nil {n : Nat} (hn : 1 ≤ n) {l : List α} (hl : l ≠ []) : lastN n l ≠ [] := by
  intro h0
  have hlen := lastN_length n l
  rw [h0, List.length_nil] at hlen
  rcases Nat.min_eq_zero_iff.mp hlen.symm with h | h
  · omega
  · exact hl (List.length_eq_zero.mp h)

theorem goodParts_lastN {parts : List PyStr} (h : GoodParts parts) (n : Nat) :
    GoodParts (lastN n parts) := fun p hp => h p (List.drop_subset _ _ hp)

theorem goodParts_append {xs ys : List PyStr} (hx : GoodParts xs) (hy : GoodParts ys) :
    GoodParts (xs ++ ys) := by
  intro p hp
  rcases List.mem_append.mp hp with h | h
  · exact hx p h
  · exact hy p h

/-! ## The scanner -/

theorem splitGo_ne_nil (sep : PyStr) :
    ∀ (fuel : Nat) (s acc : PyStr), splitGo sep fuel s acc ≠ [] := by
  intro fuel
  induction fuel with
  | zero => intro s acc; rcases s with _ | ⟨c, r⟩ <;> simp [splitGo]
  | succ f ih =>
    intro s acc
    rcases s with _ | ⟨c, r⟩
    · simp [splitGo]
    · rw [splitGo]
      split
      · simp
      · exact ih _ _

theorem splitGo_fuel (sep : PyStr) (hsep : sep ≠ []) :
    ∀ (f g : Nat) (s acc : PyStr), s.length ≤ f → s.length ≤ g →
      splitGo sep f s acc = splitGo sep g s acc := by
  have hpos : 1 ≤ sep.length := List.length_pos.mpr hsep
  intro f
  induction f with
  | zero =>
    intro g s acc hf _
    have hs : s = [] := List.length_eq_zero.mp (Nat.le_zero.mp hf)
    subst hs
    rcases g with _ | g' <;> simp [splitGo]
  | succ f' ih =>
    intro g s acc hf hg
    rcases s with _ | ⟨c, r⟩
    · rcases g with _ | g' <;> simp [splitGo]
    · rcases g with _ | g'
      · simp at hg
      · rw [splitGo, splitGo]
        by_cases hpre : sep.isPrefixOf (c :: r)
        · rw [if_pos hpre, if_pos hpre]
          have hd : ((c :: r).drop sep.length).length ≤ r.length := by
            simp [List.length_drop]
            omega
          rw [ih g' _ []
            (le_trans hd (by simpa using Nat.le_of_succ_le_succ hf))
            (le_trans hd (by simpa using Nat.le_of_succ_le_succ hg))]
        · rw [if_neg hpre, if_neg hpre]
          exact ih g' r (c :: acc) (by simpa using Nat.le_of_succ_le_succ hf)
            (by simpa using Nat.le_of_succ_le_succ hg)

theorem isPrefixOf_exists : ∀ (l1 l2 : PyStr), l1.isPrefixOf l2 = true → ∃ u, l1 ++ u = l2 := by
  intro l1
  induction l1 with
  | nil => intro l2 _; exact ⟨l2, rfl⟩
  | cons a t ih =>
    intro l2 h
    rcases l2 with _ | ⟨b, r⟩
    · simp [List.isPrefixOf] at h
    · simp only [List.isPrefixOf, Bool.and_eq_true, beq_iff_eq] at h
      obtain ⟨u, hu⟩ := ih r h.2
      exact ⟨u, by rw [h.1, List.cons_append, hu]⟩

theorem pyJoin_splitGo (sep : PyStr) (hsep : sep ≠ []) :
    ∀ (fuel : Nat) (s acc : PyStr), s.length ≤ fuel →
      pyJoin sep (splitGo sep fuel s acc) = acc.reverse ++ s := by
  have hpos : 1 ≤ sep.length := List.length_pos.mpr hsep
  intro fuel
  induction fuel with
  | zero =>
    intro s acc h
    have hs : s = [] := List.length_eq_zero.mp (Nat.le_zero.mp h)
    subst hs
    simp [splitGo, pyJoin]
  | succ f ih =>
    intro s acc h
    rcases s with _ | ⟨c, r⟩
    · simp [splitGo, pyJoin]
    · rw [splitGo]
      by_cases hpre : sep.isPrefixOf (c :: r)
      · rw [if_pos hpre]
        obtain ⟨u, hu⟩ := isPrefixOf_exists sep (c :: r) hpre
        have hdrop : (c :: r).drop sep.length = u := by
          rw [← hu, List.drop_left]
        have hulen : u.length ≤ f := by
          have : sep.length + u.length = r.length + 1 := by
            simpa using congrArg List.length hu
          simp at h
          omega
        rw [hdrop, pyJoin_cons_of_ne _ _ (splitGo_ne_nil sep f u []), ih u [] hulen]
        rw [List.append_assoc, ← hu]
        simp
      · rw [if_neg hpre, ih r (c :: acc) (by simpa using Nat.le_of_succ_le_succ h)]
        simp

theorem nn_isPrefixOf_cons (c : Char) (r : PyStr) :
    nnSep.isPrefixOf (c :: r) = true ↔ c = '\n' ∧ r.head? = some '\n' := by
  rcases r with _ | ⟨d, t⟩
  · simp [nnSep, List.isPrefixOf]
  · simp only [nnSep, List.isPrefixOf, Bool.and_eq_true, beq_iff_eq, List.head?_cons,
      Option.some.injEq]
    aesop

theorem splitGo_nn_pieces :
    ∀ (fuel : Nat) (s acc : PyStr), s.length ≤ fuel → hasNN acc.reverse = false →
      (¬(acc.head? = some '\n' ∧ s.head? = some '\n')) →
      ∀ p ∈ splitGo nnSep fuel s acc, hasNN p = false := by
  intro fuel
  induction fuel with
  | zero =>
    intro s acc h h1 _ p hp
    have hs : s = [] := List.length_eq_zero.mp (Nat.le_zero.mp h)
    subst hs
    simp [splitGo] at hp
    subst hp
    exact h1
  | succ f ih =>
    intro s acc h h1 h2 p hp
    rcases s with _ | ⟨c, r⟩
    · simp [splitGo] at hp
      subst hp
      exact h1
    · rw [splitGo] at hp
      by_cases hpre : nnSep.isPrefixOf (c :: r)
      · rw [if_pos hpre] at hp
        rcases List.mem_cons.mp hp with rfl | hp'
        · exact h1
        · refine ih _ _ ?_ (by simp [hasNN]) (by simp) p hp'
          simp [List.length_drop, nnSep] at h ⊢
          omega
      · rw [if_neg hpre] at hp
        have hnotpair : ¬(c = '\n' ∧ r.head? = some '\n') := by
          intro hc
          exact hpre ((nn_isPrefixOf_cons c r).mpr hc)
        refine ih r (c :: acc) (by simpa using Nat.le_of_succ_le_succ h) ?_ ?_ p hp
        · rw [List.reverse_cons]
          apply hasNN_snoc _ _ h1
          rw [List.getLast?_reverse]
          intro hpair
          exact h2 ⟨hpair.1, by simp [hpair.2]⟩
        · intro hpair
          simp at hpair
          exact hnotpair ⟨hpair.1, hpair.2⟩

theorem hasNN_tail {c : Char} {l : PyStr} (h : hasNN (c :: l) = false) : hasNN l = false := by
  rcases l with _ | ⟨d, t⟩
  · rfl
  · rw [hasNN_cons_cons] at h
    exact (Bool.or_eq_false_iff.mp h).2

theorem getLast?_cons_of_ne {c : α} {l : List α} (h : l ≠ []) :
    (c :: l).getLast? = l.getLast? := by
  rcases l with _ | ⟨d, t⟩
  · exact absurd rfl h
  · exact List.getLast?_cons_cons

theorem splitGo_nn_scan :
    ∀ (p : PyStr), hasNN p = false → (∀ a ∈ p.getLast?, a ≠ '\n') →
      ∀ (rest acc : PyStr) (fuel : Nat), (p ++ rest).length ≤ fuel →
        splitGo nnSep fuel (p ++ rest) acc =
          splitGo nnSep rest.length rest (p.reverse ++ acc) := by
  intro p
  induction p with
  | nil =>
    intro _ _ rest acc fuel h
    simp only [List.nil_append, List.reverse_nil] at h ⊢
    exact splitGo_fuel nnSep (by simp [nnSep]) fuel rest.length rest acc h le_rfl
  | cons c p' ih =>
    intro hnn hlast rest acc fuel h
    rcases fuel with _ | f
    · simp at h
    · rw [List.cons_append, splitGo]
      have hpre : ¬(nnSep.isPrefixOf (c :: (p' ++ rest)) = true) := by
        intro hx
        obtain ⟨hc, hh⟩ := (nn_isPrefixOf_cons _ _).mp hx
        rcases p' with _ | ⟨d, t⟩
        · exact hlast c rfl hc
        · simp only [List.cons_append, List.head?_cons] at hh
          rw [hasNN_cons_cons] at hnn
          have h1 := (Bool.or_eq_false_iff.mp hnn).1
          rw [hc, Option.some.inj hh] at h1
          simp at h1
      rw [if_neg hpre]
      have hnn' : hasNN p' = false := hasNN_tail hnn
      have hlast' : ∀ a ∈ p'.getLast?, a ≠ '\n' := by
        rcases p' with _ | ⟨d, t⟩
        · simp
        · intro a ha
          apply hlast a
          rw [getLast?_cons_of_ne (by simp)]
          exact ha
      have := ih hnn' hlast' rest (c :: acc) f (by simpa using Nat.le_of_succ_le_succ h)
      rw [this]
      simp

theorem goodPiece_getLast_ne_nl {p : PyStr} (hp : GoodPiece p) :
    ∀ a ∈ p.getLast?, a ≠ '\n' := by
  intro a ha he
  have := hp.2.2.2 a ha
  rw [he] at this
  simp at this

theorem pySplit_pyJoin_nn : ∀ (parts : List PyStr), GoodParts parts → parts ≠ [] →
    pySplit nnSep (pyJoin nnSep parts) = parts := by
  intro parts
  induction parts with
  | nil => intro _ h; exact absurd rfl h
  | cons p t ih =>
    intro h _
    have hp : GoodPiece p := h p (by simp)
    rcases t with _ | ⟨q, t'⟩
    · have hscan := splitGo_nn_scan p hp.2.1 (goodPiece_getLast_ne_nl hp) [] []
        p.length (by simp)
      simp only [List.append_nil] at hscan
      show pySplit nnSep p = [p]
      rw [pySplit, hscan]
      simp [splitGo]
    · have hJne : pyJoin nnSep (q :: t') ≠ [] :=
        pyJoin_ne_nil nnSep (by simp) (fun x hx => (h x (by simp [hx])).1)
      rw [pyJoin_cons_of_ne _ _ (by simp), pySplit, List.append_assoc]
      have hscan := splitGo_nn_scan p hp.2.1 (goodPiece_getLast_ne_nl hp)
        (nnSep ++ pyJoin nnSep (q :: t')) [] (p ++ (nnSep ++ pyJoin nnSep (q :: t'))).length
        le_rfl
      rw [hscan]
      have hshape : nnSep ++ pyJoin nnSep (q :: t') = '\n' :: '\n' :: pyJoin nnSep (q :: t') := rfl
      rw [hshape]
      have hlen : ('\n' :: '\n' :: pyJoin nnSep (q :: t')).length =
          (pyJoin nnSep (q :: t')).length + 1 + 1 := by simp
      rw [hlen, splitGo, if_pos (by simp [nnSep, List.isPrefixOf])]
      have hdrop : ('\n' :: '\n' :: pyJoin nnSep (q :: t')).drop nnSep.length =
          pyJoin nnSep (q :: t') := rfl
      rw [hdrop]
      rw [splitGo_fuel nnSep (by simp [nnSep]) _ (pyJoin nnSep (q :: t')).length _ []
        (by simp) le_rfl]
      rw [show splitGo nnSep (pyJoin nnSep (q :: t')).length (pyJoin nnSep (q :: t')) [] =
        pySplit nnSep (pyJoin nnSep (q :: t')) from rfl]
      rw [ih (fun x hx => h x (by simp [hx])) (by simp)]
      simp

theorem mem_pyJoin_within (sep : PyStr) : ∀ {p : PyStr} {parts : List PyStr},
    p ∈ parts → p <:+: pyJoin sep parts := by
  intro p parts
  induction parts with
  | nil => intro h; simp at h
  | cons q t ih =>
    intro h
    rcases List.mem_cons.mp h with rfl | h'
    · rcases t with _ | ⟨r, t'⟩
      · exact List.infix_rfl
      · rw [pyJoin_cons_of_ne _ _ (by simp), List.append_assoc]
        exact (List.prefix_append p _).isInfix
    · have ht : t ≠ [] := by rintro rfl; simp at h'
      rw [pyJoin_cons_of_ne _ _ ht]
      exact (ih h').trans (List.suffix_append _ _).isInfix

theorem pySplit_mem_within (sep : PyStr) (hsep : sep ≠ []) {s p : PyStr}
    (h : p ∈ pySplit sep s) : p <:+: s := by
  have hj := pyJoin_splitGo sep hsep s.length s [] le_rfl
  simp only [List.reverse_nil, List.nil_append] at hj
  rw [pySplit] at h
  exact hj ▸ mem_pyJoin_within sep h

/-! ## Metadata dictionaries -/

theorem getKey_setKey_self (m : Metadata) (k : PyStr) (v : MVal) :
    getKey (setKey m k v) k = some v := by
  induction m with
  | nil => simp [setKey, getKey]
  | cons kv rest ih =>
    obtain ⟨k', v'⟩ := kv
    by_cases h : k' = k
    · simp [setKey, getKey, h]
    · simp [setKey, getKey, h, ih]

theorem getKey_setKey_other (m : Metadata) {k k' : PyStr} (h : k' ≠ k) (v : MVal) :
    getKey (setKey m k' v) k = getKey m k := by
  induction m with
  | nil => simp [setKey, getKey, h]
  | cons kv rest ih =>
    obtain ⟨k0, v0⟩ := kv
    by_cases h0 : k0 = k'
    · subst h0
      simp [setKey, getKey, h]
    · simp only [setKey, if_neg h0, getKey, ih]

theorem create_chunk_content (tp : TextProcessor) (parts : List PyStr)
    (metadata : Option Metadata) (i : Nat) :
    (tp.create_chunk parts metadata i).content = pyJoin nnSep parts := rfl

theorem create_chunk_metadata (tp : TextProcessor) (parts : List PyStr)
    (metadata : Option Metadata) (i : Nat) :
    (tp.create_chunk parts metadata i).metadata =
      setKey (setKey (metadata.getD []) (pls "chunk_id") (.n i)) (pls "tokens")
        (.n (tp.tok (pyJoin nnSep parts))) := by
  rcases metadata with _ | m <;> rfl

theorem create_chunk_chunk_id (tp : TextProcessor) (parts : List PyStr)
    (metadata : Option Metadata) (i : Nat) :
    getKey (tp.create_chunk parts metadata i).metadata (pls "chunk_id") = some (.n i) := by
  rw [create_chunk_metadata, getKey_setKey_other _ (by decide) _, getKey_setKey_self]

/-! ## The accumulation invariant -/

theorem chunksOk_snoc {tp : TextProcessor} {metadata : Option Metadata} {l : List Chunk}
    {parts : List PyStr} (hok : ChunksOk tp metadata l) (hne : parts ≠ [])
    (hgood : GoodParts parts)
    (hsize : (parts.map tp.tok).sum ≤ tp.chunk_size ∨ parts.length ≤ 2) :
    ChunksOk tp metadata (l ++ [tp.create_chunk parts metadata l.length]) := by
  intro i h
  simp only [List.length_append, List.length_cons, List.length_nil] at h
  by_cases hi : i < l.length
  · obtain ⟨ps, h1, h2, h3, h4⟩ := hok i hi
    exact ⟨ps, h1, h2, by rw [List.getElem_append_left hi]; exact h3, h4⟩
  · have heq : i = l.length := by omega
    subst heq
    exact ⟨parts, hne, hgood, by rw [List.getElem_concat_length _ _ _ rfl], hsize⟩

theorem segInv_flushCert {tp : TextProcessor} {metadata : Option Metadata} {st : SegState}
    (inv : SegInv tp metadata st) :
    (st.current_chunk.map tp.tok).sum ≤ tp.chunk_size ∨ st.current_chunk.length ≤ 2 := by
  by_cases h : (st.current_chunk.map tp.tok).sum ≤ tp.chunk_size
  · exact Or.inl h
  · refine Or.inr (inv.small ?_)
    rw [inv.len_eq]
    omega

theorem segInv_afterFlushAppend {tp : TextProcessor} {metadata : Option Metadata}
    {chunks' : List Chunk} (hok : ChunksOk tp metadata chunks') {cur1 : List PyStr}
    {len1 : Nat} {s : PyStr} (hs : GoodPiece s)
    (hcur : (cur1 = [] ∧ len1 = 0) ∨ ∃ o, GoodPiece o ∧ cur1 = [o] ∧ len1 = tp.tok o) :
    SegInv tp metadata ⟨chunks', cur1 ++ [s], len1 + tp.count_tokens s⟩ := by
  rcases hcur with ⟨rfl, rfl⟩ | ⟨o, ho, rfl, rfl⟩
  · refine ⟨by simp [TextProcessor.count_tokens], ?_, by simp, hok⟩
    intro p hp
    rw [List.nil_append, List.mem_singleton] at hp
    exact hp ▸ hs
  · refine ⟨by simp [TextProcessor.count_tokens], ?_, by simp, hok⟩
    intro p hp
    rcases List.mem_append.mp hp with h | h
    · exact (List.mem_singleton.mp h) ▸ ho
    · exact (List.mem_singleton.mp h) ▸ hs

theorem segInv_sentenceStep {tp : TextProcessor} {metadata : Option Metadata} {st : SegState}
    (inv : SegInv tp metadata st) {s : PyStr} (hs : GoodPiece s) :
    SegInv tp metadata (tp.sentenceStep metadata s st) := by
  rw [TextProcessor.sentenceStep]
  by_cases hc : st.current_length + tp.count_tokens s > tp.chunk_size ∧ st.current_chunk ≠ []
  · rw [if_pos hc]
    have hok' : ChunksOk tp metadata
        (st.chunks ++ [tp.create_chunk st.current_chunk metadata st.chunks.length]) :=
      chunksOk_snoc inv.chunks_ok hc.2 inv.good (segInv_flushCert inv)
    by_cases h2 : st.current_chunk.length ≥ 2
    · rw [if_pos h2]
      have hanchor : GoodPiece (pyJoin spSep (lastN 2 st.current_chunk)) :=
        goodPiece_joinSp _ (goodParts_lastN inv.good 2) (lastN_ne_nil (by omega) hc.2)
      rw [if_pos (by simpa using hanchor.1)]
      exact segInv_afterFlushAppend hok' hs (Or.inr ⟨_, hanchor, rfl, rfl⟩)
    · rw [if_neg h2]
      rw [if_neg (by simp)]
      exact segInv_afterFlushAppend hok' hs (Or.inl ⟨rfl, rfl⟩)
  · rw [if_neg hc]
    refine ⟨?_, ?_, ?_, inv.chunks_ok⟩
    · simp [inv.len_eq, TextProcessor.count_tokens]
    · intro p hp
      rcases List.mem_append.mp hp with h | h
      · exact inv.good p h
      · exact (List.mem_singleton.mp h) ▸ hs
    · intro hgt
      simp only [not_and_or, not_lt, not_not, gt_iff_lt, not_lt] at hc
      rcases hc with h | h
      · simp only at hgt
        omega
      · rw [h]
        simp

theorem segInv_processSentences {tp : TextProcessor} {metadata : Option Metadata} :
    ∀ (sents : List PyStr) (st : SegState), SegInv tp metadata st →
      (∀ x ∈ sents, hasNN x = false) →
      SegInv tp metadata (tp.processSentences metadata sents st) := by
  intro sents
  induction sents with
  | nil => intro st inv _; exact inv
  | cons x rest ih =>
    intro st inv hx
    simp only [TextProcessor.processSentences]
    by_cases h0 : pyStrip x = []
    · rw [if_pos h0]
      exact ih st inv (fun y hy => hx y (by simp [hy]))
    · rw [if_neg h0]
      exact ih _ (segInv_sentenceStep inv (goodPiece_strip h0 (hx x (by simp))))
        (fun y hy => hx y (by simp [hy]))

theorem segInv_paraStep {tp : TextProcessor} {metadata : Option Metadata} {st : SegState}
    (inv : SegInv tp metadata st) {p : PyStr} (hp : GoodPiece p) :
    SegInv tp metadata (tp.paraStep metadata p st) := by
  rw [TextProcessor.paraStep]
  by_cases hc : st.current_length + tp.count_tokens p > tp.chunk_size ∧ st.current_chunk ≠ []
  · rw [if_pos hc]
    have hok' : ChunksOk tp metadata
        (st.chunks ++ [tp.create_chunk st.current_chunk metadata st.chunks.length]) :=
      chunksOk_snoc inv.chunks_ok hc.2 inv.good (segInv_flushCert inv)
    have hanchor : GoodPiece (pyJoin spSep (lastN 1 st.current_chunk)) :=
      goodPiece_joinSp _ (goodParts_lastN inv.good 1) (lastN_ne_nil (by omega) hc.2)
    rw [if_pos (by simpa using hanchor.1)]
    exact segInv_afterFlushAppend hok' hp (Or.inr ⟨_, hanchor, rfl, rfl⟩)
  · rw [if_neg hc]
    refine ⟨?_, ?_, ?_, inv.chunks_ok⟩
    · simp [inv.len_eq, TextProcessor.count_tokens]
    · intro q hq
      rcases List.mem_append.mp hq with h | h
      · exact inv.good q h
      · exact (List.mem_singleton.mp h) ▸ hp
    · intro hgt
      simp only [not_and_or, not_lt, not_not, gt_iff_lt, not_lt] at hc
      rcases hc with h | h
      · simp only at hgt
        omega
      · rw [h]
        simp

theorem segInv_processParas {tp : TextProcessor} {metadata : Option Metadata} :
    ∀ (paras : List PyStr) (st : SegState), SegInv tp metadata st →
      (∀ x ∈ paras, hasNN x = false) →
      SegInv tp metadata (tp.processParas metadata paras st) := by
  intro paras
  induction paras with
  | nil => intro st inv _; exact inv
  | cons para rest ih =>
    intro st inv hx
    simp only [TextProcessor.processParas]
    by_cases h0 : pyStrip para = []
    · rw [if_pos h0]
      exact ih st inv (fun y hy => hx y (by simp [hy]))
    · rw [if_neg h0]
      have hpnn : hasNN (pyStrip para) = false :=
        hasNN_of_within (pyStrip_within para) (hx para (by simp))
      have hpgood : GoodPiece (pyStrip para) := goodPiece_strip h0 (hx para (by simp))
      by_cases h1 : tp.count_tokens (pyStrip para) > tp.chunk_size
      · rw [if_pos h1]
        have hsent : ∀ x ∈ pySplit dotSep (pyStrip para), hasNN x = false := fun x hxmem =>
          hasNN_of_within (pySplit_mem_within dotSep (by simp [dotSep]) hxmem) hpnn
        have hst1 : SegInv tp metadata
            (if st.current_chunk ≠ [] then
              ⟨st.chunks ++ [tp.create_chunk st.current_chunk metadata st.chunks.length], [], 0⟩
            else st) := by
          by_cases h2 : st.current_chunk ≠ []
          · rw [if_pos h2]
            exact ⟨by simp, by intro q hq; simp at hq, by simp,
              chunksOk_snoc inv.chunks_ok h2 inv.good (segInv_flushCert inv)⟩
          · rw [if_neg h2]
            exact inv
        exact ih _ (segInv_processSentences _ _ hst1 hsent) (fun y hy => hx y (by simp [hy]))
      · rw [if_neg h1]
        exact ih _ (segInv_paraStep inv hpgood) (fun y hy => hx y (by simp [hy]))

theorem split_text_chunksOk (tp : TextProcessor) (metadata : Option Metadata) (text : PyStr) :
    ChunksOk tp metadata (tp.split_text text metadata) := by
  rw [TextProcessor.split_text]
  by_cases h0 : text = [] ∨ pyStrip text = []
  · rw [if_pos h0]
    intro i h
    simp at h
  · rw [if_neg h0]
    have hparas : ∀ x ∈ pySplit nnSep text, hasNN x = false := fun x hx =>
      splitGo_nn_pieces text.length text [] le_rfl rfl (by simp) x hx
    have inv0 : SegInv tp metadata ⟨[], [], 0⟩ :=
      ⟨rfl, by intro p hp; simp at hp, by simp, by intro i h; simp at h⟩
    have inv := segInv_processParas (pySplit nnSep text) ⟨[], [], 0⟩ inv0 hparas
    by_cases h1 : (tp.processParas metadata (pySplit nnSep text) ⟨[], [], 0⟩).current_chunk ≠ []
    · rw [if_pos h1]
      exact chunksOk_snoc inv.chunks_ok h1 inv.good (segInv_flushCert inv)
    · rw [if_neg h1]
      exact inv.chunks_ok

/-! ## Claim theorems: segmentation -/

/-- C5: for every input text and metadata, the chunk_id values assigned by
`split_text` are exactly 0, 1, 2, ... in emission order (the chunk at
position `i` carries chunk_id `i`), for any tokenizer. -/
theorem split_text_chunk_ids (tp : TextProcessor) (text : PyStr)
    (metadata : Option Metadata) (i : Nat)
    (h : i < (tp.split_text text metadata).length) :
    getKey ((tp.split_text text metadata)[i]).metadata (pls "chunk_id") =
      some (.n i) := by
  obtain ⟨parts, _, _, h3, _⟩ := split_text_chunksOk tp metadata text i h
  rw [h3, create_chunk_chunk_id]

/-- Witness for `split_text_chunk_ids` at a concrete input. -/
theorem split_text_chunk_ids_witness :
    getKey (Chunk.mk (pls "a b c d\n\ne f")
        [(pls "chunk_id", MVal.n 1), (pls "tokens", MVal.n 6)]).metadata
      (pls "chunk_id") = some (MVal.n 1) :=
  split_text_chunk_ids (wordProcessor 4) (pls "a b. c d. e f. g h") none 1 (by decide)

/-- C10: `split_text` never mutates the caller's metadata mapping (the
embedding is pure, and `_create_chunk` copies before writing): every emitted
chunk's metadata is the caller's mapping (or the empty one when it is
`None`) extended, on a fresh copy, with exactly the `chunk_id` and `tokens`
keys; in particular a `None` metadata argument yields chunks whose metadata
holds only those two fields. -/
theorem split_text_metadata_fresh (tp : TextProcessor) (text : PyStr)
    (metadata : Option Metadata) :
    ∀ c ∈ tp.split_text text metadata, ∃ i,
      c.metadata = setKey (setKey (metadata.getD []) (pls "chunk_id") (.n i))
        (pls "tokens") (.n (tp.tok c.content)) := by
  intro c hc
  obtain ⟨i, h, rfl⟩ := List.mem_iff_getElem.mp hc
  obtain ⟨parts, _, _, h3, _⟩ := split_text_chunksOk tp metadata text i h
  refine ⟨i, ?_⟩
  rw [h3, create_chunk_metadata, create_chunk_content]

/-- Witness for `split_text_metadata_fresh` at a concrete input. -/
theorem split_text_metadata_fresh_witness :
    Chunk.mk (pls "a b\n\nc d") [(pls "chunk_id", MVal.n 0), (pls "tokens", MVal.n 4)] ∈
      (wordProcessor 4).split_text (pls "a b. c d. e f. g h") none ∧
    ∃ i, [(pls "chunk_id", MVal.n 0), (pls "tokens", MVal.n 4)] =
      setKey (setKey ((none : Option Metadata).getD []) (pls "chunk_id") (.n i))
        (pls "tokens") (.n ((wordProcessor 4).tok (pls "a b\n\nc d"))) :=
  ⟨by decide, split_text_metadata_fresh (wordProcessor 4) (pls "a b. c d. e f. g h") none
    (Chunk.mk (pls "a b\n\nc d") [(pls "chunk_id", MVal.n 0), (pls "tokens", MVal.n 4)])
    (by decide)⟩

/-- C1 fails on the code: with `chunk_size = 4` (word tokens) and the single
paragraph `"a b. c d. e f. g h"` — which does contain the `". "` sentence
separator, and whose fragments each have 2 ≤ 4 tokens — the second and third
emitted chunks have token counts 6 and 8 > 4: the overlap anchor seeded after
a flush, plus the next fragment, exceeds the budget (and snowballs). -/
theorem split_text_budget_counterexample :
    (((wordProcessor 4).split_text (pls "a b. c d. e f. g h") none).map
      (fun c => wordTok c.content) = [4, 6, 8]) ∧
    (pySplit dotSep (pls "a b. c d. e f. g h")).length = 4 ∧
    (∀ f ∈ pySplit dotSep (pls "a b. c d. e f. g h"), wordTok (pyStrip f) ≤ 4) ∧
    4 < wordTok (pyStrip (pls "a b. c d. e f. g h")) := by
  refine ⟨by decide, by decide, by decide, by decide⟩

/-- C1 (amended): every chunk produced by `split_text` (word tokenizer) has
token count at most `chunk_size`, except chunks assembled from at most two
pending pieces — a single oversized fragment (for instance a paragraph with
no `". "` separator), or an overlap anchor together with the single fragment
appended right after a flush — which may exceed `chunk_size`. -/
theorem split_text_budget_amended (chunk_size : Nat) (text : PyStr)
    (metadata : Option Metadata) :
    ∀ c ∈ (wordProcessor chunk_size).split_text text metadata,
      wordTok c.content ≤ chunk_size ∨
      ∃ parts i, parts.length ≤ 2 ∧ GoodParts parts ∧
        c = (wordProcessor chunk_size).create_chunk parts metadata i := by
  intro c hc
  obtain ⟨i, h, rfl⟩ := List.mem_iff_getElem.mp hc
  obtain ⟨parts, h1, h2, h3, h4⟩ :=
    split_text_chunksOk (wordProcessor chunk_size) metadata text i h
  rcases h4 with h4 | h4
  · left
    rw [h3, create_chunk_content, wordTok_join nnSep (by decide) (by simp [nnSep])]
    exact h4
  · exact Or.inr ⟨parts, i, h4, h2, h3⟩

/-- Witness for `split_text_budget_amended` at a concrete input. -/
theorem split_text_budget_amended_witness :
    Chunk.mk (pls "a b c d\n\ne f") [(pls "chunk_id", MVal.n 1), (pls "tokens", MVal.n 6)] ∈
      (wordProcessor 4).split_text (pls "a b. c d. e f. g h") none ∧
    (wordTok (pls "a b c d\n\ne f") ≤ 4 ∨
      ∃ parts i, parts.length ≤ 2 ∧ GoodParts parts ∧
        Chunk.mk (pls "a b c d\n\ne f")
            [(pls "chunk_id", MVal.n 1), (pls "tokens", MVal.n 6)] =
          (wordProcessor 4).create_chunk parts none i) :=
  ⟨by decide, split_text_budget_amended 4 (pls "a b. c d. e f. g h") none
    (Chunk.mk (pls "a b c d\n\ne f") [(pls "chunk_id", MVal.n 1), (pls "tokens", MVal.n 6)])
    (by decide)⟩

/-! ## Claim theorems: query and indexing pipeline -/

/-- C3: if the Vector Index search returns zero results, `query` returns the
fixed no-relevant-information answer together with an empty sources sequence,
and the Generative Model Service is not invoked. -/
theorem query_short_circuit (embedFn : PyStr → Embedding)
    (searchFn : Embedding → Nat → List RetrievedDoc)
    (llmFn : PyStr → List RetrievedDoc → PyStr) (question : PyStr) (top_k : Nat)
    (h : searchFn (embedFn question) top_k = []) :
    RAGEngine.query embedFn searchFn llmFn question top_k =
      ({ answer := noInfoAnswer, sources := [], num_sources := none },
        [.embedCall question, .searchCall top_k]) ∧
    ∀ q, Effect.llmCall q ∉ (RAGEngine.query embedFn searchFn llmFn question top_k).2 := by
  have h1 : RAGEngine.query embedFn searchFn llmFn question top_k =
      ({ answer := noInfoAnswer, sources := [], num_sources := none },
        [.embedCall question, .searchCall top_k]) := by
    rw [RAGEngine.query]
    simp [h]
  refine ⟨h1, fun q hq => ?_⟩
  rw [h1] at hq
  simp at hq

/-- Witness for `query_short_circuit` on concrete collaborators. -/
theorem query_short_circuit_witness :
    RAGEngine.query (fun _ => []) (fun _ _ => []) (fun _ _ => []) (pls "hola") 3 =
      ({ answer := noInfoAnswer, sources := [], num_sources := none },
        [.embedCall (pls "hola"), .searchCall 3]) ∧
    ∀ q, Effect.llmCall q ∉
      (RAGEngine.query (fun _ => []) (fun _ _ => []) (fun _ _ => []) (pls "hola") 3).2 :=
  query_short_circuit (fun _ => []) (fun _ _ => []) (fun _ _ => []) (pls "hola") 3 rfl

/-- C4: `add_documents` raises the contract-violation `ValueError` before any
Vector Index store call when the chunk and embedding sequences differ in
length, and a store call happens only when the lengths are equal. -/
theorem add_documents_mismatch
    (addFn : List PyStr → List PyStr → List Embedding → List Metadata → Except PyStr Unit)
    (chunks : List Chunk) (embeddings : List Embedding) :
    (chunks.length ≠ embeddings.length →
      VectorStore.add_documents addFn chunks embeddings = (.error mismatchMsg, [])) ∧
    ((VectorStore.add_documents addFn chunks embeddings).2 ≠ [] →
      chunks.length = embeddings.length) := by
  constructor
  · intro h
    rw [VectorStore.add_documents, if_pos h]
  · intro h
    by_contra hne
    rw [VectorStore.add_documents, if_pos hne] at h
    exact h rfl

/-- Witness for `add_documents_mismatch` at a concrete mismatched input. -/
theorem add_documents_mismatch_witness :
    VectorStore.add_documents (fun _ _ _ _ => .ok ()) [Chunk.mk [] []] [] =
      (.error mismatchMsg, []) :=
  (add_documents_mismatch (fun _ _ _ _ => .ok ()) [Chunk.mk [] []] []).1 (by decide)

/-- C7: if the Vector Index query operation raises, `VectorStore.search`
returns an empty result sequence instead of propagating the failure. -/
theorem search_degrades_to_empty (queryFn : Embedding → Nat → Except PyStr RawResults)
    (query_embedding : Embedding) (top_k : Nat) (e : PyStr)
    (h : queryFn query_embedding top_k = .error e) :
    VectorStore.search queryFn query_embedding top_k = [] := by
  rw [VectorStore.search, h]

/-- Witness for `search_degrades_to_empty` on a failing collaborator. -/
theorem search_degrades_to_empty_witness :
    VectorStore.search (fun _ _ => .error (pls "boom")) [] 3 = [] :=
  search_degrades_to_empty (fun _ _ => .error (pls "boom")) [] 3 (pls "boom") rfl

/-- C9 fails on the code: `index_documents` never returns a count — on an
empty document sequence it executes Python's bare `return`, i.e. it returns
`None`, not the count `0`. -/
theorem index_documents_counterexample :
    (RAGEngine.index_documents (wordProcessor 4) [] (fun _ => [])
        (fun _ _ _ _ => .ok ())).1 = .ok none ∧
    (Except.ok (none : Option Nat) : Except PyStr (Option Nat)) ≠ .ok (some 0) :=
  ⟨rfl, by simp⟩

/-- C9 (amended): on an empty document sequence `index_documents` returns
`None` (no count) after only the load step: no segmentation, no batch
embedding and no Vector Index store call is performed. -/
theorem index_documents_empty (tp : TextProcessor)
    (embedFn : List PyStr → List Embedding)
    (addFn : List PyStr → List PyStr → List Embedding → List Metadata → Except PyStr Unit) :
    RAGEngine.index_documents tp [] embedFn addFn = (.ok none, [.loadCall]) ∧
    (∀ ids docs embs metas,
      Effect.storeCall ids docs embs metas ∉ (RAGEngine.index_documents tp [] embedFn addFn).2) ∧
    Effect.segmentCall ∉ (RAGEngine.index_documents tp [] embedFn addFn).2 ∧
    (∀ texts, Effect.embedBatchCall texts ∉ (RAGEngine.index_documents tp [] embedFn addFn).2) := by
  refine ⟨rfl, ?_, ?_, ?_⟩ <;> simp [RAGEngine.index_documents]

/-- The sources sequence built by `query` on a non-empty retrieval. -/
theorem query_sources_eq (embedFn : PyStr → Embedding)
    (searchFn : Embedding → Nat → List RetrievedDoc)
    (llmFn : PyStr → List RetrievedDoc → PyStr) (question : PyStr) (top_k : Nat)
    (hne : searchFn (embedFn question) top_k ≠ []) :
    (RAGEngine.query embedFn searchFn llmFn question top_k).1.sources =
      (searchFn (embedFn question) top_k).map (fun doc =>
        { file := (getKey doc.metadata (pls "file_name")).getD (.s unknownFile)
          chunk_id := (getKey doc.metadata (pls "chunk_id")).getD (.n 0)
          relevance :=
            if truthyQ doc.distance then some (1 - doc.distance.getD 0) else none }) := by
  rw [RAGEngine.query]
  simp [hne]

/-- C2 fails on the code: a retrieved entry whose distance is known and
exactly 0 gets relevance `None` (Python truthiness makes `0.0` falsy), not
`1 − 0 = 1`. -/
theorem query_relevance_counterexample :
    (RAGEngine.query (fun _ => [])
        (fun _ _ => [RetrievedDoc.mk (pls "x")
          [(pls "file_name", MVal.s (pls "f.txt")), (pls "chunk_id", MVal.n 0)] (some 0)])
        (fun _ _ => pls "ans") (pls "q") 3).1.sources =
      [SourceInfo.mk (MVal.s (pls "f.txt")) (MVal.n 0) none] ∧
    (none : Option ℚ) ≠ some (1 - 0) := by
  constructor
  · rw [query_sources_eq _ _ _ _ _ (by simp)]
    simp [truthyQ, getKey]
    decide
  · simp

/-- C2 (amended): for every entry of the sources sequence, the reported
relevance is `1 − distance` when the retrieval distance is known and nonzero,
and absent both when the distance is absent and when it is exactly zero
(Python truthiness). -/
theorem query_relevance_amended (embedFn : PyStr → Embedding)
    (searchFn : Embedding → Nat → List RetrievedDoc)
    (llmFn : PyStr → List RetrievedDoc → PyStr) (question : PyStr) (top_k : Nat)
    (i : Nat) (h : i < (searchFn (embedFn question) top_k).length) :
    ((RAGEngine.query embedFn searchFn llmFn question top_k).1.sources[i]?).map
        (fun s => s.relevance) =
      some (match ((searchFn (embedFn question) top_k)[i]).distance with
        | some d => if d = 0 then none else some (1 - d)
        | none => none) := by
  have hne : searchFn (embedFn question) top_k ≠ [] := by
    intro h0
    rw [h0] at h
    simp at h
  rw [query_sources_eq _ _ _ _ _ hne, List.getElem?_map, List.getElem?_eq_getElem h]
  rcases hd : ((searchFn (embedFn question) top_k)[i]).distance with _ | d
  · simp [hd, truthyQ]
  · by_cases h0 : d = 0
    · simp [hd, truthyQ, h0]
    · simp [hd, truthyQ, h0]

/-- Witness for `query_relevance_amended`: one entry with a concrete nonzero
distance (relevance `1 − 1/2`) and one with an absent distance (relevance
absent). -/
theorem query_relevance_amended_witness :
    (((RAGEngine.query (fun _ => [])
        (fun _ _ => [RetrievedDoc.mk (pls "x") [] (some (1/2)),
          RetrievedDoc.mk (pls "y") [] none])
        (fun _ _ => pls "ans") (pls "q") 3).1.sources[0]?).map (fun s => s.relevance) =
      some (if (1/2 : ℚ) = 0 then none else some (1 - 1/2))) ∧
    (((RAGEngine.query (fun _ => [])
        (fun _ _ => [RetrievedDoc.mk (pls "x") [] (some (1/2)),
          RetrievedDoc.mk (pls "y") [] none])
        (fun _ _ => pls "ans") (pls "q") 3).1.sources[1]?).map (fun s => s.relevance) =
      some none) :=
  ⟨query_relevance_amended (fun _ => [])
      (fun _ _ => [RetrievedDoc.mk (pls "x") [] (some (1/2)),
        RetrievedDoc.mk (pls "y") [] none])
      (fun _ _ => pls "ans") (pls "q") 3 0 (by simp),
    query_relevance_amended (fun _ => [])
      (fun _ _ => [RetrievedDoc.mk (pls "x") [] (some (1/2)),
        RetrievedDoc.mk (pls "y") [] none])
      (fun _ _ => pls "ans") (pls "q") 3 1 (by simp)⟩

/-! ## Decimal ids -/

theorem natStrGo_congr : ∀ (f g n : Nat), n ≤ f → n ≤ g → natStrGo f n = natStrGo g n := by
  intro f
  induction f with
  | zero =>
    intro g n hf _
    have h0 : n = 0 := Nat.le_zero.mp hf
    subst h0
    rcases g with _ | g'
    · rfl
    · simp [natStrGo]
  | succ f' ih =>
    intro g n hf hg
    rcases g with _ | g'
    · have h0 : n = 0 := Nat.le_zero.mp hg
      subst h0
      simp [natStrGo]
    · simp only [natStrGo]
      by_cases h10 : n < 10
      · simp [h10]
      · simp only [h10, if_false]
        have hdiv : n / 10 < n := Nat.div_lt_self (by omega) (by norm_num)
        rw [ih g' (n / 10) (by omega) (by omega)]

theorem natStr_eq (n : Nat) : natStr n =
    if n < 10 then [Nat.digitChar n]
    else natStr (n / 10) ++ [Nat.digitChar (n % 10)] := by
  rw [natStr]
  rcases n with _ | m
  · simp [natStrGo]
  · simp only [natStrGo]
    by_cases h10 : m + 1 < 10
    · simp [h10]
    · simp only [h10, if_false]
      have hdiv : (m + 1) / 10 < m + 1 := Nat.div_lt_self (by omega) (by norm_num)
      rw [natStr, natStrGo_congr m ((m + 1) / 10) ((m + 1) / 10) (by omega) le_rfl]

theorem natStr_digits (n : Nat) : ∀ c ∈ natStr n, ∃ d, d < 10 ∧ c = Nat.digitChar d := by
  induction n using Nat.strong_induction_on with
  | _ n ih =>
    rw [natStr_eq n]
    by_cases h10 : n < 10
    · rw [if_pos h10]
      intro c hc
      exact ⟨n, h10, List.mem_singleton.mp hc⟩
    · rw [if_neg h10]
      intro c hc
      rcases List.mem_append.mp hc with h | h
      · exact ih (n / 10) (Nat.div_lt_self (by omega) (by norm_num)) c h
      · exact ⟨n % 10, Nat.mod_lt _ (by norm_num), List.mem_singleton.mp h⟩

theorem digitChar_ne_underscore {d : Nat} (h : d < 10) : Nat.digitChar d ≠ '_' := by
  interval_cases d <;> decide

theorem digitChar_val {d : Nat} (h : d < 10) : (Nat.digitChar d).toNat - 48 = d := by
  interval_cases d <;> decide

theorem natStr_no_underscore (n : Nat) : ∀ c ∈ natStr n, (c != '_') = true := by
  intro c hc
  obtain ⟨d, hd, rfl⟩ := natStr_digits n c hc
  simp [bne_iff_ne, digitChar_ne_underscore hd]

theorem digitsVal_natStr (n : Nat) : digitsVal (natStr n) = n := by
  induction n using Nat.strong_induction_on with
  | _ n ih =>
    rw [natStr_eq n]
    by_cases h10 : n < 10
    · rw [if_pos h10]
      simp [digitsVal, digitChar_val h10]
    · rw [if_neg h10]
      rw [digitsVal, List.foldl_append]
      rw [show List.foldl (fun a c => a * 10 + (c.toNat - 48)) 0 (natStr (n / 10)) =
        digitsVal (natStr (n / 10)) from rfl]
      rw [ih (n / 10) (Nat.div_lt_self (by omega) (by norm_num))]
      simp only [List.foldl_cons, List.foldl_nil]
      rw [digitChar_val (Nat.mod_lt n (by norm_num))]
      omega

theorem takeWhile_append_stop {p : α → Bool} : ∀ (xs : List α), (∀ c ∈ xs, p c = true) →
    ∀ (y : α), p y = false → ∀ (ys : List α), List.takeWhile p (xs ++ y :: ys) = xs := by
  intro xs
  induction xs with
  | nil =>
    intro _ y hy ys
    simp [List.takeWhile_cons, hy]
  | cons a t ih =>
    intro h y hy ys
    rw [List.cons_append, List.takeWhile_cons, h a (by simp)]
    simp [ih (fun c hc => h c (by simp [hc])) y hy ys]

theorem idIndex_mkDocId (i : Nat) (chunk : Chunk) : idIndex (mkDocId i chunk) = i := by
  rw [idIndex, mkDocId]
  rw [show pls "doc_" ++ natStr i ++ pls "_" ++ chunkIdRender chunk i =
    pls "doc_" ++ (natStr i ++ pls "_" ++ chunkIdRender chunk i) by simp]
  rw [show (4 : Nat) = (pls "doc_").length from rfl, List.drop_left]
  rw [show natStr i ++ pls "_" ++ chunkIdRender chunk i =
    natStr i ++ '_' :: chunkIdRender chunk i by simp [pls]]
  rw [takeWhile_append_stop (natStr i) (natStr_no_underscore i) '_' (by decide) _]
  exact digitsVal_natStr i

theorem makeIds_getElem? : ∀ (chunks : List Chunk) (i0 j : Nat),
    (makeIds i0 chunks)[j]? = (chunks[j]?).map (fun c => mkDocId (i0 + j) c) := by
  intro chunks
  induction chunks with
  | nil => intro i0 j; simp [makeIds]
  | cons c rest ih =>
    intro i0 j
    rcases j with _ | k
    · simp [makeIds]
    · rw [makeIds]
      simp only [List.getElem?_cons_succ]
      rw [ih (i0 + 1) k]
      have harith : i0 + 1 + k = i0 + (k + 1) := by omega
      rw [harith]

theorem makeIds_idIndex_mem : ∀ (chunks : List Chunk) (i0 : Nat), ∀ s ∈ makeIds i0 chunks,
    i0 ≤ idIndex s ∧ idIndex s < i0 + chunks.length := by
  intro chunks
  induction chunks with
  | nil => intro i0 s hs; simp [makeIds] at hs
  | cons c rest ih =>
    intro i0 s hs
    rw [makeIds] at hs
    rcases List.mem_cons.mp hs with rfl | hs'
    · rw [idIndex_mkDocId]
      simp
    · have := ih (i0 + 1) s hs'
      constructor
      · omega
      · simp only [List.length_cons]
        omega

theorem makeIds_nodup : ∀ (chunks : List Chunk) (i0 : Nat), (makeIds i0 chunks).Nodup := by
  intro chunks
  induction chunks with
  | nil => intro i0; simp [makeIds]
  | cons c rest ih =>
    intro i0
    rw [makeIds, List.nodup_cons]
    refine ⟨?_, ih (i0 + 1)⟩
    intro hmem
    have hb := makeIds_idIndex_mem rest (i0 + 1) _ hmem
    rw [idIndex_mkDocId] at hb
    omega

/-- C8: when the lengths match, `add_documents` hands the Vector Index ids
whose entry at flat position `i` is exactly `"doc_" + i + "_" + chunk_id`
(the chunk's own chunk_id, defaulting to `i`), and the ids generated within
one store call are pairwise distinct. -/
theorem add_documents_unique_ids
    (addFn : List PyStr → List PyStr → List Embedding → List Metadata → Except PyStr Unit)
    (chunks : List Chunk) (embeddings : List Embedding)
    (h : chunks.length = embeddings.length) :
    (VectorStore.add_documents addFn chunks embeddings).2 =
      [.storeCall (makeIds 0 chunks) (chunks.map (·.content)) embeddings
        (chunks.map (·.metadata))] ∧
    (∀ j, (makeIds 0 chunks)[j]? = (chunks[j]?).map (fun c =>
      pls "doc_" ++ natStr j ++ pls "_" ++ chunkIdRender c j)) ∧
    (makeIds 0 chunks).Nodup := by
  refine ⟨?_, ?_, makeIds_nodup chunks 0⟩
  · rw [VectorStore.add_documents, if_neg (by omega)]
    rcases haddFn : addFn (makeIds 0 chunks) (chunks.map (·.content)) embeddings
      (chunks.map (·.metadata)) with e | u
    · simp [haddFn]
    · simp [haddFn]
  · intro j
    rw [makeIds_getElem? chunks 0 j]
    simp [mkDocId]

/-- Witness for `add_documents_unique_ids` on a concrete chunk list. -/
theorem add_documents_unique_ids_witness :
    (VectorStore.add_documents (fun _ _ _ _ => .ok ())
        [Chunk.mk (pls "x") [(pls "chunk_id", MVal.n 0)],
         Chunk.mk (pls "y") [(pls "chunk_id", MVal.n 1)]] [[], []]).2 =
      [.storeCall
        (makeIds 0 [Chunk.mk (pls "x") [(pls "chunk_id", MVal.n 0)],
          Chunk.mk (pls "y") [(pls "chunk_id", MVal.n 1)]])
        [pls "x", pls "y"] [[], []]
        [[(pls "chunk_id", MVal.n 0)], [(pls "chunk_id", MVal.n 1)]] ] ∧
    (∀ j, (makeIds 0 [Chunk.mk (pls "x") [(pls "chunk_id", MVal.n 0)],
        Chunk.mk (pls "y") [(pls "chunk_id", MVal.n 1)]])[j]? =
      (([Chunk.mk (pls "x") [(pls "chunk_id", MVal.n 0)],
        Chunk.mk (pls "y") [(pls "chunk_id", MVal.n 1)]])[j]?).map (fun c =>
          pls "doc_" ++ natStr j ++ pls "_" ++ chunkIdRender c j)) ∧
    (makeIds 0 [Chunk.mk (pls "x") [(pls "chunk_id", MVal.n 0)],
      Chunk.mk (pls "y") [(pls "chunk_id", MVal.n 1)]]).Nodup :=
  add_documents_unique_ids (fun _ _ _ _ => .ok ())
    [Chunk.mk (pls "x") [(pls "chunk_id", MVal.n 0)],
     Chunk.mk (pls "y") [(pls "chunk_id", MVal.n 1)]] [[], []] rfl

/-! ## Overlap carry machinery -/

theorem processSentences_eq_processFrags {tp : TextProcessor} {metadata : Option Metadata} :
    ∀ (sents : List PyStr) (st : SegState),
      tp.processSentences metadata sents st =
        tp.processFrags metadata ((sents.map pyStrip).filter (fun f => f ≠ [])) st := by
  intro sents
  induction sents with
  | nil => intro st; rfl
  | cons x rest ih =>
    intro st
    simp only [TextProcessor.processSentences, List.map_cons]
    by_cases h0 : pyStrip x = []
    · rw [if_pos h0, List.filter_cons_of_neg (by simp [h0])]
      exact ih st
    · rw [if_neg h0, List.filter_cons_of_pos (by simp [h0])]
      rw [ih (tp.sentenceStep metadata (pyStrip x) st)]
      rfl

theorem pyJoin_head_leads (sep x : PyStr) (xs : List PyStr) : x <+: pyJoin sep (x :: xs) := by
  rcases xs with _ | ⟨y, t⟩
  · exact List.prefix_rfl
  · rw [pyJoin_cons_of_ne _ _ (by simp), List.append_assoc]
    exact List.prefix_append x _

theorem sentenceStep_chunks_grow {tp : TextProcessor} {metadata : Option Metadata}
    {s : PyStr} {st : SegState} :
    st.chunks <+: (tp.sentenceStep metadata s st).chunks := by
  simp only [TextProcessor.sentenceStep]
  by_cases hc : st.current_length + tp.count_tokens s > tp.chunk_size ∧ st.current_chunk ≠ []
  · rw [if_pos hc]
    by_cases h2 : st.current_chunk.length ≥ 2
    · rw [if_pos h2]
      by_cases h3 : pyJoin spSep (lastN 2 st.current_chunk) ≠ []
      · rw [if_pos h3]
        exact List.prefix_append _ _
      · rw [if_neg h3]
        exact List.prefix_append _ _
    · rw [if_neg h2]
      rw [if_neg (by simp)]
      exact List.prefix_append _ _
  · rw [if_neg hc]

theorem processFrags_chunks_grow (tp : TextProcessor) (metadata : Option Metadata) :
    ∀ (fs : List PyStr) (st : SegState),
      st.chunks <+: (tp.processFrags metadata fs st).chunks := by
  intro fs
  induction fs with
  | nil => intro st; exact List.prefix_rfl
  | cons f rest ih =>
    intro st
    exact sentenceStep_chunks_grow.trans (ih (tp.sentenceStep metadata f st))

theorem processSentences_chunks_grow (tp : TextProcessor) (metadata : Option Metadata)
    (sents : List PyStr) (st : SegState) :
    st.chunks <+: (tp.processSentences metadata sents st).chunks := by
  rw [processSentences_eq_processFrags]
  exact processFrags_chunks_grow tp metadata _ _

theorem paraStep_chunks_grow {tp : TextProcessor} {metadata : Option Metadata}
    {p : PyStr} {st : SegState} :
    st.chunks <+: (tp.paraStep metadata p st).chunks := by
  simp only [TextProcessor.paraStep]
  by_cases hc : st.current_length + tp.count_tokens p > tp.chunk_size ∧ st.current_chunk ≠ []
  · rw [if_pos hc]
    by_cases h3 : pyJoin spSep (lastN 1 st.current_chunk) ≠ []
    · rw [if_pos h3]
      exact List.prefix_append _ _
    · rw [if_neg h3]
      exact List.prefix_append _ _
  · rw [if_neg hc]

theorem processParas_chunks_grow (tp : TextProcessor) (metadata : Option Metadata) :
    ∀ (paras : List PyStr) (st : SegState),
      st.chunks <+: (tp.processParas metadata paras st).chunks := by
  intro paras
  induction paras with
  | nil => intro st; exact List.prefix_rfl
  | cons para rest ih =>
    intro st
    simp only [TextProcessor.processParas]
    by_cases h0 : pyStrip para = []
    · rw [if_pos h0]
      exact ih st
    · rw [if_neg h0]
      by_cases h1 : tp.count_tokens (pyStrip para) > tp.chunk_size
      · rw [if_pos h1]
        refine List.IsPrefix.trans ?_ (List.IsPrefix.trans
          (processSentences_chunks_grow tp metadata _ _) (ih _))
        by_cases h2 : st.current_chunk ≠ []
        · rw [if_pos h2]
          exact List.prefix_append _ _
        · rw [if_neg h2]
      · rw [if_neg h1]
        exact paraStep_chunks_grow.trans (ih _)

theorem sentenceStep_next {tp : TextProcessor} {metadata : Option Metadata} {s : PyStr}
    {st : SegState} {x : PyStr} {xs : List PyStr} (hcur : st.current_chunk = x :: xs) :
    ((tp.sentenceStep metadata s st).chunks = st.chunks ∧
      ∃ ys, (tp.sentenceStep metadata s st).current_chunk = x :: ys) ∨
    (∃ c tail, (tp.sentenceStep metadata s st).chunks = st.chunks ++ c :: tail ∧
      x <+: c.content) := by
  simp only [TextProcessor.sentenceStep]
  by_cases hc : st.current_length + tp.count_tokens s > tp.chunk_size ∧ st.current_chunk ≠ []
  · rw [if_pos hc]
    right
    refine ⟨tp.create_chunk st.current_chunk metadata st.chunks.length, [], ?_, ?_⟩
    · by_cases h2 : st.current_chunk.length ≥ 2
      · rw [if_pos h2]
        by_cases h3 : pyJoin spSep (lastN 2 st.current_chunk) ≠ []
        · rw [if_pos h3]
        · rw [if_neg h3]
      · rw [if_neg h2]
        rw [if_neg (by simp)]
    · rw [create_chunk_content, hcur]
      exact pyJoin_head_leads nnSep x xs
  · rw [if_neg hc]
    left
    refine ⟨rfl, xs ++ [s], ?_⟩
    rw [hcur]
    rfl

theorem processFrags_next {tp : TextProcessor} {metadata : Option Metadata} :
    ∀ (fs : List PyStr) (st : SegState) (x : PyStr) (xs : List PyStr),
      st.current_chunk = x :: xs →
      ((tp.processFrags metadata fs st).chunks = st.chunks ∧
        ∃ ys, (tp.processFrags metadata fs st).current_chunk = x :: ys) ∨
      (∃ c tail, (tp.processFrags metadata fs st).chunks = st.chunks ++ c :: tail ∧
        x <+: c.content) := by
  intro fs
  induction fs with
  | nil =>
    intro st x xs hcur
    exact Or.inl ⟨rfl, xs, hcur⟩
  | cons f rest ih =>
    intro st x xs hcur
    rcases sentenceStep_next (s := f) hcur with ⟨hch, ys, hcur'⟩ | ⟨c, tail, heq, hpre⟩
    · rcases ih (tp.sentenceStep metadata f st) x ys hcur' with ⟨hch2, zs, hcur2⟩ |
        ⟨c, tail, heq, hpre⟩
      · exact Or.inl ⟨by rw [show tp.processFrags metadata (f :: rest) st =
          tp.processFrags metadata rest (tp.sentenceStep metadata f st) from rfl, hch2, hch],
          zs, hcur2⟩
      · refine Or.inr ⟨c, tail, ?_, hpre⟩
        rw [show tp.processFrags metadata (f :: rest) st =
          tp.processFrags metadata rest (tp.sentenceStep metadata f st) from rfl, heq, hch]
    · obtain ⟨more, hmore⟩ := processFrags_chunks_grow tp metadata
        rest (tp.sentenceStep metadata f st)
      refine Or.inr ⟨c, tail ++ more, ?_, hpre⟩
      rw [show tp.processFrags metadata (f :: rest) st =
        tp.processFrags metadata rest (tp.sentenceStep metadata f st) from rfl]
      rw [← hmore, heq]
      simp

theorem paraStep_next {tp : TextProcessor} {metadata : Option Metadata} {p : PyStr}
    {st : SegState} {x : PyStr} {xs : List PyStr} (hcur : st.current_chunk = x :: xs) :
    ((tp.paraStep metadata p st).chunks = st.chunks ∧
      ∃ ys, (tp.paraStep metadata p st).current_chunk = x :: ys) ∨
    (∃ c tail, (tp.paraStep metadata p st).chunks = st.chunks ++ c :: tail ∧
      x <+: c.content) := by
  simp only [TextProcessor.paraStep]
  by_cases hc : st.current_length + tp.count_tokens p > tp.chunk_size ∧ st.current_chunk ≠ []
  · rw [if_pos hc]
    right
    refine ⟨tp.create_chunk st.current_chunk metadata st.chunks.length, [], ?_, ?_⟩
    · by_cases h3 : pyJoin spSep (lastN 1 st.current_chunk) ≠ []
      · rw [if_pos h3]
      · rw [if_neg h3]
    · rw [create_chunk_content, hcur]
      exact pyJoin_head_leads nnSep x xs
  · rw [if_neg hc]
    left
    refine ⟨rfl, xs ++ [p], ?_⟩
    rw [hcur]
    rfl

theorem processParas_next {tp : TextProcessor} {metadata : Option Metadata} :
    ∀ (paras : List PyStr) (st : SegState) (x : PyStr) (xs : List PyStr),
      st.current_chunk = x :: xs →
      ((tp.processParas metadata paras st).chunks = st.chunks ∧
        ∃ ys, (tp.processParas metadata paras st).current_chunk = x :: ys) ∨
      (∃ c tail, (tp.processParas metadata paras st).chunks = st.chunks ++ c :: tail ∧
        x <+: c.content) := by
  intro paras
  induction paras with
  | nil =>
    intro st x xs hcur
    exact Or.inl ⟨rfl, xs, hcur⟩
  | cons para rest ih =>
    intro st x xs hcur
    simp only [TextProcessor.processParas]
    by_cases h0 : pyStrip para = []
    · rw [if_pos h0]
      exact ih st x xs hcur
    · rw [if_neg h0]
      by_cases h1 : tp.count_tokens (pyStrip para) > tp.chunk_size
      · rw [if_pos h1]
        rw [if_pos (by rw [hcur]; simp)]
        have hflush : (⟨st.chunks ++
            [tp.create_chunk st.current_chunk metadata st.chunks.length], [], 0⟩ :
            SegState).chunks = st.chunks ++
              tp.create_chunk st.current_chunk metadata st.chunks.length :: [] := by simp
        obtain ⟨m1, hm1⟩ := processSentences_chunks_grow tp metadata
          (pySplit dotSep (pyStrip para))
          ⟨st.chunks ++ [tp.create_chunk st.current_chunk metadata st.chunks.length], [], 0⟩
        obtain ⟨m2, hm2⟩ := processParas_chunks_grow tp metadata
          rest (tp.processSentences metadata (pySplit dotSep (pyStrip para))
            ⟨st.chunks ++ [tp.create_chunk st.current_chunk metadata st.chunks.length], [], 0⟩)
        refine Or.inr ⟨tp.create_chunk st.current_chunk metadata st.chunks.length,
          m1 ++ m2, ?_, ?_⟩
        · rw [← hm2, ← hm1]
          simp
        · rw [create_chunk_content, hcur]
          exact pyJoin_head_leads nnSep x xs
      · rw [if_neg h1]
        rcases paraStep_next (p := pyStrip para) hcur with ⟨hch, ys, hcur'⟩ |
          ⟨c, tail, heq, hpre⟩
        · rcases ih (tp.paraStep metadata (pyStrip para) st) x ys hcur' with
            ⟨hch2, zs, hcur2⟩ | ⟨c, tail, heq, hpre⟩
          · exact Or.inl ⟨by rw [hch2, hch], zs, hcur2⟩
          · refine Or.inr ⟨c, tail, ?_, hpre⟩
            rw [heq, hch]
        · obtain ⟨more, hmore⟩ := processParas_chunks_grow tp metadata
            rest (tp.paraStep metadata (pyStrip para) st)
          refine Or.inr ⟨c, tail ++ more, ?_, hpre⟩
          rw [← hmore, heq]
          simp

theorem sentenceStep_flush_eq {tp : TextProcessor} {metadata : Option Metadata}
    {C : List Chunk} {acc : List PyStr} {len : Nat} {f : PyStr}
    (hc : len + tp.count_tokens f > tp.chunk_size) (hacc : acc ≠ [])
    (hgood : GoodParts acc) :
    tp.sentenceStep metadata f ⟨C, acc, len⟩ =
      ⟨C ++ [tp.create_chunk acc metadata C.length],
       if acc.length ≥ 2 then [pyJoin spSep (lastN 2 acc), f] else [f],
       if acc.length ≥ 2 then tp.count_tokens (pyJoin spSep (lastN 2 acc)) + tp.count_tokens f
         else 0 + tp.count_tokens f⟩ := by
  simp only [TextProcessor.sentenceStep]
  rw [if_pos ⟨hc, hacc⟩]
  by_cases h2 : acc.length ≥ 2
  · have hanch : pyJoin spSep (lastN 2 acc) ≠ [] :=
      (goodPiece_joinSp _ (goodParts_lastN hgood 2) (lastN_ne_nil (by omega) hacc)).1
    rw [if_pos h2, if_pos hanch, if_pos h2, if_pos h2]
    rfl
  · rw [if_neg h2, if_neg (by simp), if_neg h2, if_neg h2]
    rfl

theorem sentenceStep_append_eq (tp : TextProcessor) (metadata : Option Metadata)
    (C : List Chunk) (acc : List PyStr) (len : Nat) (f : PyStr)
    (hc : ¬(len + tp.count_tokens f > tp.chunk_size ∧ acc ≠ [])) :
    tp.sentenceStep metadata f ⟨C, acc, len⟩ = ⟨C, acc ++ [f], len + tp.count_tokens f⟩ := by
  simp only [TextProcessor.sentenceStep]
  rw [if_neg hc]

theorem processFrags_packFirst (tp : TextProcessor) (metadata : Option Metadata) :
    ∀ (fs acc : List PyStr) (C : List Chunk),
      (∀ f ∈ fs, tp.tok f ≤ tp.chunk_size) → GoodParts fs → GoodParts acc →
      (acc.map tp.tok).sum ≤ tp.chunk_size →
      tp.chunk_size < (acc.map tp.tok).sum + (fs.map tp.tok).sum →
      ∃ pre f post,
        fs = pre ++ f :: post ∧
        acc ++ pre ≠ [] ∧
        ((acc ++ pre).map tp.tok).sum ≤ tp.chunk_size ∧
        tp.chunk_size < ((acc ++ pre).map tp.tok).sum + tp.tok f ∧
        tp.processFrags metadata fs ⟨C, acc, (acc.map tp.tok).sum⟩ =
          tp.processFrags metadata post
            ⟨C ++ [tp.create_chunk (acc ++ pre) metadata C.length],
             if (acc ++ pre).length ≥ 2
               then [pyJoin spSep (lastN 2 (acc ++ pre)), f] else [f],
             if (acc ++ pre).length ≥ 2
               then tp.count_tokens (pyJoin spSep (lastN 2 (acc ++ pre))) + tp.count_tokens f
               else 0 + tp.count_tokens f⟩ := by
  intro fs
  induction fs with
  | nil =>
    intro acc C _ _ _ hle hgt
    exfalso
    simp only [List.map_nil, List.sum_nil, Nat.add_zero] at hgt
    omega
  | cons f rest ih =>
    intro acc C hfs hgfs hgacc hle hgt
    have hf : tp.tok f ≤ tp.chunk_size := hfs f (by simp)
    by_cases hflush : (acc.map tp.tok).sum + tp.count_tokens f > tp.chunk_size ∧ acc ≠ []
    · refine ⟨[], f, rest, by simp, by simpa using hflush.2, by simpa using hle,
        by simpa [TextProcessor.count_tokens] using hflush.1, ?_⟩
      rw [show tp.processFrags metadata (f :: rest) ⟨C, acc, (acc.map tp.tok).sum⟩ =
        tp.processFrags metadata rest
          (tp.sentenceStep metadata f ⟨C, acc, (acc.map tp.tok).sum⟩) from rfl]
      rw [sentenceStep_flush_eq hflush.1 hflush.2 hgacc]
      simp only [List.append_nil]
    · have hstep := sentenceStep_append_eq tp metadata
        C acc ((acc.map tp.tok).sum) f hflush
      have hle' : ((acc ++ [f]).map tp.tok).sum ≤ tp.chunk_size := by
        rcases not_and_or.mp hflush with h | h
        · simp only [gt_iff_lt, not_lt, TextProcessor.count_tokens] at h
          simp only [List.map_append, List.sum_append, List.map_cons, List.sum_cons,
            List.map_nil, List.sum_nil]
          omega
        · have hacc0 : acc = [] := not_not.mp h
          subst hacc0
          simpa using hf
      have hgt' : tp.chunk_size < ((acc ++ [f]).map tp.tok).sum + (rest.map tp.tok).sum := by
        simp only [List.map_append, List.sum_append, List.map_cons, List.sum_cons,
          List.map_nil, List.sum_nil] at hgt ⊢
        omega
      obtain ⟨pre', f', post', hfs', hne', hle'', hgt'', heq'⟩ :=
        ih (acc ++ [f]) C (fun g hg => hfs g (by simp [hg]))
          (fun g hg => hgfs g (by simp [hg]))
          (goodParts_append hgacc (fun g hg => by
            rw [List.mem_singleton.mp hg]; exact hgfs f (by simp)))
          hle' hgt'
      have hlist : acc ++ f :: pre' = (acc ++ [f]) ++ pre' := by simp
      refine ⟨f :: pre', f', post', by simp [hfs'], ?_, ?_, ?_, ?_⟩
      · rw [hlist]; exact hne'
      · rw [hlist]; exact hle''
      · rw [hlist]; exact hgt''
      · rw [show tp.processFrags metadata (f :: rest) ⟨C, acc, (acc.map tp.tok).sum⟩ =
          tp.processFrags metadata rest
            (tp.sentenceStep metadata f ⟨C, acc, (acc.map tp.tok).sum⟩) from rfl]
        rw [hstep]
        have hsum : (acc.map tp.tok).sum + tp.count_tokens f = ((acc ++ [f]).map tp.tok).sum := by
          simp [TextProcessor.count_tokens]
        rw [hsum, hlist]
        exact heq'

theorem chain_next {tp : TextProcessor} {metadata : Option Metadata}
    (paras post : List PyStr) (st' : SegState) (x : PyStr) (xs : List PyStr)
    (hcur : st'.current_chunk = x :: xs) :
    ∃ c2 rest2,
      (if (tp.processParas metadata paras (tp.processFrags metadata post st')).current_chunk
          ≠ [] then
        (tp.processParas metadata paras (tp.processFrags metadata post st')).chunks ++
          [tp.create_chunk
            (tp.processParas metadata paras
              (tp.processFrags metadata post st')).current_chunk metadata
            (tp.processParas metadata paras
              (tp.processFrags metadata post st')).chunks.length]
      else (tp.processParas metadata paras (tp.processFrags metadata post st')).chunks) =
        st'.chunks ++ c2 :: rest2 ∧ x <+: c2.content := by
  rcases processFrags_next post st' x xs hcur with ⟨hch, ys, hcur2⟩ | ⟨c, tail, heq2, hpre2⟩
  · rcases processParas_next paras _ x ys hcur2 with ⟨hch2, zs, hcur3⟩ |
      ⟨c, tail, heq2, hpre2⟩
    · refine ⟨tp.create_chunk (x :: zs) metadata
        (tp.processParas metadata paras
          (tp.processFrags metadata post st')).chunks.length, [], ?_, ?_⟩
      · rw [if_pos (by rw [hcur3]; simp), hcur3, hch2, hch]
      · rw [create_chunk_content]
        exact pyJoin_head_leads nnSep x zs
    · by_cases hfin : (tp.processParas metadata paras
          (tp.processFrags metadata post st')).current_chunk ≠ []
      · refine ⟨c, tail ++ [tp.create_chunk
          (tp.processParas metadata paras
            (tp.processFrags metadata post st')).current_chunk metadata
          (tp.processParas metadata paras
            (tp.processFrags metadata post st')).chunks.length], ?_, hpre2⟩
        rw [if_pos hfin, heq2, hch]
        simp
      · refine ⟨c, tail, ?_, hpre2⟩
        rw [if_neg hfin, heq2, hch]
  · obtain ⟨m, hm⟩ := processParas_chunks_grow tp metadata
      paras (tp.processFrags metadata post st')
    by_cases hfin : (tp.processParas metadata paras
        (tp.processFrags metadata post st')).current_chunk ≠ []
    · refine ⟨c, (tail ++ m) ++ [tp.create_chunk
        (tp.processParas metadata paras
          (tp.processFrags metadata post st')).current_chunk metadata
        (tp.processParas metadata paras
          (tp.processFrags metadata post st')).chunks.length], ?_, hpre2⟩
      rw [if_pos hfin, ← hm, heq2]
      simp
    · refine ⟨c, tail ++ m, ?_, hpre2⟩
      rw [if_neg hfin, ← hm, heq2]
      simp

theorem wordProcessor_tok (n : Nat) : (wordProcessor n).tok = wordTok := rfl

theorem wordProcessor_size (n : Nat) : (wordProcessor n).chunk_size = n := rfl

/-- C6 fails as stated: for `chunk_size = 2` and the single-paragraph text
`"a. . b"`, the paragraph (3 tokens) exceeds the budget and every stripped
sentence fragment fits, yet `split_text` emits a single chunk, not two — the
`". "` separators removed by the split carry token weight, so the surviving
fragments pack into one chunk. -/
theorem split_text_overlap_counterexample :
    ((wordProcessor 2).split_text (pls "a. . b") none).length = 1 ∧
    pySplit nnSep (pls "a. . b") = [pls "a. . b"] ∧
    2 < wordTok (pyStrip (pls "a. . b")) ∧
    (∀ f ∈ pySplit dotSep (pyStrip (pls "a. . b")), wordTok (pyStrip f) ≤ 2) :=
  ⟨by decide, by decide, by decide, by decide⟩

/-- C6 (amended): for every text whose first paragraph alone exceeds
`chunk_size` while its individual sentence fragments do not, provided the
surviving fragments' total token count still exceeds `chunk_size`, the
segmenter produces at least two chunks and the second chunk's content begins
with the verbatim last two pieces of the first chunk joined by a space
whenever the first chunk has at least two pieces (no overlap anchor is
carried otherwise). -/
theorem split_text_overlap_carry (chunk_size : Nat) (text : PyStr)
    (metadata : Option Metadata) (para0 : PyStr) (paras : List PyStr)
    (frags : List PyStr)
    (hsplit : pySplit nnSep text = para0 :: paras)
    (hfrags : ((pySplit dotSep (pyStrip para0)).map pyStrip).filter (fun f => f ≠ []) = frags)
    (hbig : chunk_size < wordTok (pyStrip para0))
    (hfrag : ∀ f ∈ pySplit dotSep (pyStrip para0), wordTok (pyStrip f) ≤ chunk_size)
    (hsum : chunk_size < (frags.map wordTok).sum) :
    ∃ c1 c2 rest, (wordProcessor chunk_size).split_text text metadata = c1 :: c2 :: rest ∧
      ((pySplit nnSep c1.content).length ≥ 2 →
        pyJoin spSep (lastN 2 (pySplit nnSep c1.content)) <+: c2.content) := by
  have hp0ne : pyStrip para0 ≠ [] := wordTok_pos_ne_nil (by omega)
  have hmem_para : para0 ∈ pySplit nnSep text := by rw [hsplit]; simp
  have hwithin : para0 <:+: text := pySplit_mem_within nnSep (by simp [nnSep]) hmem_para
  obtain ⟨cch, hcin, hcw⟩ := pyStrip_has_nonws hp0ne
  have hctext : cch ∈ text := hwithin.subset hcin
  have hstriptext : pyStrip text ≠ [] := pyStrip_ne_nil hctext hcw
  have htextne : text ≠ [] := by rintro rfl; simp at hctext
  have hparaNN : hasNN para0 = false :=
    splitGo_nn_pieces text.length text [] le_rfl rfl (by simp) para0 hmem_para
  have hp0NN : hasNN (pyStrip para0) = false := hasNN_of_within (pyStrip_within para0) hparaNN
  have hfragsGood : GoodParts frags := by
    intro g hg
    rw [← hfrags, List.mem_filter] at hg
    obtain ⟨hg1, hg2⟩ := hg
    obtain ⟨x, hx, rfl⟩ := List.mem_map.mp hg1
    exact goodPiece_strip (by simpa using hg2)
      (hasNN_of_within (pySplit_mem_within dotSep (by simp [dotSep]) hx) hp0NN)
  have hfragsTok : ∀ g ∈ frags,
      (wordProcessor chunk_size).tok g ≤ (wordProcessor chunk_size).chunk_size := by
    intro g hg
    rw [← hfrags, List.mem_filter] at hg
    obtain ⟨x, hx, rfl⟩ := List.mem_map.mp hg.1
    exact hfrag x hx
  obtain ⟨pre, f, post, hfs, hne, hle, hgt, heq⟩ :=
    processFrags_packFirst (wordProcessor chunk_size) metadata
      frags [] [] hfragsTok hfragsGood (fun g hg => by simp at hg) (by simp)
      (by simpa [wordProcessor_tok, wordProcessor_size] using hsum)
  simp only [List.nil_append, List.length_nil, List.map_nil, List.sum_nil] at heq hne hle hgt
  have hGoodPre : GoodParts pre := fun g hg =>
    hfragsGood g (by rw [hfs]; exact List.mem_append_left _ hg)
  rw [TextProcessor.split_text, if_neg (by push_neg; exact ⟨htextne, hstriptext⟩), hsplit]
  simp only [TextProcessor.processParas]
  rw [if_neg hp0ne]
  have hbig2 : (wordProcessor chunk_size).count_tokens (pyStrip para0) >
      (wordProcessor chunk_size).chunk_size := hbig
  rw [if_pos hbig2,
    if_neg (show ¬((⟨[], [], 0⟩ : SegState).current_chunk ≠ []) by simp),
    processSentences_eq_processFrags, hfrags, heq]
  by_cases hlen : pre.length ≥ 2
  · rw [if_pos hlen, if_pos hlen]
    obtain ⟨c2, rest2, hres, hpre2⟩ := chain_next paras post
      ⟨[(wordProcessor chunk_size).create_chunk pre metadata 0],
        [pyJoin spSep (lastN 2 pre), f],
        (wordProcessor chunk_size).count_tokens (pyJoin spSep (lastN 2 pre)) +
          (wordProcessor chunk_size).count_tokens f⟩
      (pyJoin spSep (lastN 2 pre)) [f] rfl
    refine ⟨(wordProcessor chunk_size).create_chunk pre metadata 0, c2, rest2, ?_, ?_⟩
    · rw [hres]
      rfl
    · intro _
      rw [create_chunk_content, pySplit_pyJoin_nn pre hGoodPre hne]
      exact hpre2
  · rw [if_neg hlen, if_neg hlen]
    obtain ⟨c2, rest2, hres, _⟩ := chain_next paras post
      ⟨[(wordProcessor chunk_size).create_chunk pre metadata 0], [f],
        0 + (wordProcessor chunk_size).count_tokens f⟩ f [] rfl
    refine ⟨(wordProcessor chunk_size).create_chunk pre metadata 0, c2, rest2, ?_, ?_⟩
    · rw [hres]
      rfl
    · intro h2
      rw [create_chunk_content, pySplit_pyJoin_nn pre hGoodPre hne] at h2
      exact absurd h2 hlen

/-- Witness for `split_text_overlap_carry` at a concrete input. -/
theorem split_text_overlap_carry_witness :
    ∃ c1 c2 rest,
      (wordProcessor 4).split_text (pls "a b. c d. e f. g h") none = c1 :: c2 :: rest ∧
      ((pySplit nnSep c1.content).length ≥ 2 →
        pyJoin spSep (lastN 2 (pySplit nnSep c1.content)) <+: c2.content) :=
  split_text_overlap_carry 4 (pls "a b. c d. e f. g h") none (pls "a b. c d. e f. g h") []
    [pls "a b", pls "c d", pls "e f", pls "g h"] (by decide) (by decide) (by decide)
    (by decide) (by decide)
